import Mathlib

/-!
Verification development for the SKIRT radiative-transfer core:
the Voronoi mesh snapshot (point location and ray walk), the parallel
chunk dispenser, and the flux recorder.

Real-valued quantities (`double` in the source) are modelled as exact
rationals `ℚ`; machine floating point is not modelled.  Fallible code
paths (fatal errors, out-of-bounds array writes) are modelled with
`Option`.
-/

set_option allowUnsafeReducibility true in
attribute [semireducible] Rat.add Rat.sub Rat.mul Rat.div Rat.inv Rat.blt Rat.normalize Rat.neg

/-- A 3-D vector, mirroring `Vec` from the source (three `double`s). -/
structure Vec3 where
  x : ℚ
  y : ℚ
  z : ℚ
deriving DecidableEq, Repr

instance : Add Vec3 := ⟨fun a b => ⟨a.x + b.x, a.y + b.y, a.z + b.z⟩⟩

instance : Sub Vec3 := ⟨fun a b => ⟨a.x - b.x, a.y - b.y, a.z - b.z⟩⟩

instance : SMul ℚ Vec3 := ⟨fun c a => ⟨c * a.x, c * a.y, c * a.z⟩⟩

/-- `Vec::norm2`: the squared norm of a vector. -/
def Vec3.norm2 (a : Vec3) : ℚ := a.x * a.x + a.y * a.y + a.z * a.z

/-- `Vec::dot`: the dot product. -/
def Vec3.dot (a b : Vec3) : ℚ := a.x * b.x + a.y * b.y + a.z * b.z

/-- `VoronoiCell::squaredDistanceTo`: squared distance `(r - _r).norm2()`. -/
def sqDist (r s : Vec3) : ℚ := (r - s).norm2

theorem smul_x (c : ℚ) (a : Vec3) : (c • a).x = c * a.x := rfl

theorem smul_y (c : ℚ) (a : Vec3) : (c • a).y = c * a.y := rfl

theorem smul_z (c : ℚ) (a : Vec3) : (c • a).z = c * a.z := rfl

theorem add_x (a b : Vec3) : (a + b).x = a.x + b.x := rfl

theorem add_y (a b : Vec3) : (a + b).y = a.y + b.y := rfl

theorem add_z (a b : Vec3) : (a + b).z = a.z + b.z := rfl

theorem vec3_ext (a b : Vec3) (hx : a.x = b.x) (hy : a.y = b.y) (hz : a.z = b.z) :
    a = b := by
  cases a; cases b; simp_all

/-- An axis-aligned box, mirroring the `Box` class (`xmin … zmax`). -/
structure Box3 where
  xmin : ℚ
  xmax : ℚ
  ymin : ℚ
  ymax : ℚ
  zmin : ℚ
  zmax : ℚ
deriving DecidableEq, Repr

/-- `Box::contains`: inclusive containment test. -/
def Box3.contains (b : Box3) (v : Vec3) : Prop :=
  b.xmin ≤ v.x ∧ v.x ≤ b.xmax ∧ b.ymin ≤ v.y ∧ v.y ≤ b.ymax ∧
    b.zmin ≤ v.z ∧ v.z ≤ b.zmax

instance (b : Box3) (v : Vec3) : Decidable (b.contains v) := by
  unfold Box3.contains; infer_instance

/-- Coordinate of a vector along a split axis (0 = x, 1 = y, 2 = z); the
source's `switch` statements return 0 in the unreachable default case. -/
def coord (ax : ℕ) (v : Vec3) : ℚ :=
  match ax with
  | 0 => v.x
  | 1 => v.y
  | 2 => v.z
  | _ => 0

/-- One round of the comparison chain from `VoronoiMesh_Private::lessthan`:
lexicographic comparison of a rotated coordinate triple. -/
def lexLt (a1 b1 c1 a2 b2 c2 : ℚ) : Bool :=
  if a1 < a2 then true else if a1 > a2 then false
  else if b1 < b2 then true else if b1 > b2 then false
  else if c1 < c2 then true else false

/-- `VoronoiMesh_Private::lessthan`: compares two points lexicographically
starting at the given axis, cycling through the axes. -/
def lessthan (p1 p2 : Vec3) (axis : ℕ) : Bool :=
  match axis with
  | 0 => lexLt p1.x p1.y p1.z p2.x p2.y p2.z
  | 1 => lexLt p1.y p1.z p1.x p2.y p2.z p2.x
  | 2 => lexLt p1.z p1.x p1.y p2.z p2.x p2.y
  | _ => false

theorem lexLt_false_iff (a1 b1 c1 a2 b2 c2 : ℚ) :
    lexLt a1 b1 c1 a2 b2 c2 = false ↔
      a2 < a1 ∨ (a2 = a1 ∧ (b2 < b1 ∨ (b2 = b1 ∧ c2 ≤ c1))) := by
  unfold lexLt
  split_ifs with h1 h2 h3 h4 h5
  · exact iff_of_false (by simp) (by rintro (h | ⟨e, h⟩) <;> linarith)
  · exact iff_of_true rfl (Or.inl h2)
  · exact iff_of_false (by simp) (by rintro (h | ⟨e, h | ⟨f, h⟩⟩) <;> linarith)
  · exact iff_of_true rfl (Or.inr ⟨by linarith, Or.inl h4⟩)
  · exact iff_of_false (by simp) (by rintro (h | ⟨e, h | ⟨f, h⟩⟩) <;> linarith)
  · exact iff_of_true rfl (Or.inr ⟨by linarith, Or.inr ⟨by linarith, by linarith⟩⟩)

theorem lexLt_irrefl (a b c : ℚ) : lexLt a b c a b c = false := by
  rw [lexLt_false_iff]; right; exact ⟨rfl, Or.inr ⟨rfl, le_refl c⟩⟩

theorem lexLt_not_trans {a1 b1 c1 a2 b2 c2 a3 b3 c3 : ℚ}
    (h1 : lexLt a2 b2 c2 a1 b1 c1 = false) (h2 : lexLt a3 b3 c3 a2 b2 c2 = false) :
    lexLt a3 b3 c3 a1 b1 c1 = false := by
  rw [lexLt_false_iff] at h1 h2 ⊢
  rcases h1 with h1 | ⟨e1, h1⟩ <;> rcases h2 with h2 | ⟨e2, h2⟩
  · left; linarith
  · left; linarith
  · left; linarith
  · right; refine ⟨by linarith, ?_⟩
    rcases h1 with h1 | ⟨f1, h1⟩ <;> rcases h2 with h2 | ⟨f2, h2⟩
    · left; linarith
    · left; linarith
    · left; linarith
    · right; exact ⟨by linarith, by linarith⟩

theorem lexLt_first_le {a1 b1 c1 a2 b2 c2 : ℚ} (h : lexLt a1 b1 c1 a2 b2 c2 = true) :
    a1 ≤ a2 := by
  by_contra hc
  rw [show lexLt a1 b1 c1 a2 b2 c2 = false from ?_] at h
  · exact Bool.false_ne_true h
  · rw [lexLt_false_iff]; left; linarith

theorem lessthan_irrefl (p : Vec3) (ax : ℕ) : lessthan p p ax = false := by
  unfold lessthan
  match ax with
  | 0 => exact lexLt_irrefl _ _ _
  | 1 => exact lexLt_irrefl _ _ _
  | 2 => exact lexLt_irrefl _ _ _
  | n + 3 => rfl

theorem coord_le_of_lessthan {p1 p2 : Vec3} {ax : ℕ} (h : lessthan p1 p2 ax = true) :
    coord ax p1 ≤ coord ax p2 := by
  unfold lessthan at h
  match ax with
  | 0 => exact lexLt_first_le h
  | 1 => exact lexLt_first_le h
  | 2 => exact lexLt_first_le h
  | n + 3 => simp at h

theorem coord_ge_of_not_lessthan {p1 p2 : Vec3} {ax : ℕ} (hax : ax < 3)
    (h : lessthan p1 p2 ax = false) : coord ax p2 ≤ coord ax p1 := by
  unfold lessthan at h
  match ax with
  | 0 => rw [lexLt_false_iff] at h; show p2.x ≤ p1.x; rcases h with h | ⟨e, _⟩ <;> linarith
  | 1 => rw [lexLt_false_iff] at h; show p2.y ≤ p1.y; rcases h with h | ⟨e, _⟩ <;> linarith
  | 2 => rw [lexLt_false_iff] at h; show p2.z ≤ p1.z; rcases h with h | ⟨e, _⟩ <;> linarith
  | n + 3 => omega

theorem not_lessthan_trans {a b c : Vec3} {ax : ℕ}
    (h1 : lessthan b a ax = false) (h2 : lessthan c b ax = false) :
    lessthan c a ax = false := by
  unfold lessthan at h1 h2 ⊢
  match ax with
  | 0 => exact lexLt_not_trans h1 h2
  | 1 => exact lexLt_not_trans h1 h2
  | 2 => exact lexLt_not_trans h1 h2
  | n + 3 => rfl

/-- The squared gap along one coordinate is a lower bound on `sqDist`. -/
theorem sq_coord_le_sqDist (p q : Vec3) {ax : ℕ} (hax : ax < 3) :
    (coord ax p - coord ax q) ^ 2 ≤ sqDist p q := by
  have hd : sqDist p q =
      (p.x - q.x) * (p.x - q.x) + (p.y - q.y) * (p.y - q.y) + (p.z - q.z) * (p.z - q.z) := rfl
  rw [hd]
  match ax with
  | 0 => show (p.x - q.x) ^ 2 ≤ _; nlinarith [sq_nonneg (p.y - q.y), sq_nonneg (p.z - q.z)]
  | 1 => show (p.y - q.y) ^ 2 ≤ _; nlinarith [sq_nonneg (p.x - q.x), sq_nonneg (p.z - q.z)]
  | 2 => show (p.z - q.z) ^ 2 ≤ _; nlinarith [sq_nonneg (p.x - q.x), sq_nonneg (p.y - q.y)]
  | n + 3 => omega

/-- A k-d tree node as in `VoronoiMesh_Private::Node`: the site index `m`
defining the split, the split axis (`depth mod 3`), and the two children
(null pointers become `nil`).  Parent pointers are not needed: the source's
iterative descend-and-unwind is rendered as recursion (see `nearestKd`). -/
inductive KdTree where
  | nil : KdTree
  | node (m : ℕ) (ax : ℕ) (left : KdTree) (right : KdTree) : KdTree
deriving DecidableEq, Repr

/-- The site indices stored in a subtree. -/
def KdTree.elems : KdTree → List ℕ
  | .nil => []
  | .node m _ l r => l.elems ++ m :: r.elems

/-- `Node::squaredDistanceToSplitPlane`: squared distance from the query
point to the splitting plane of a node (0 in the unreachable default). -/
def sqSplit (p site : Vec3) (ax : ℕ) : ℚ := (coord ax site - coord ax p) ^ 2


/-- The better of the near-subtree result and the current node's site
(the state of `best` in `Node::nearest` after the update at the current
node, before the far child is considered).  Ties keep the deeper node,
as the source's strict `<` comparison does. -/
def kdBest1 (site : ℕ → Vec3) (p : Vec3) (m : ℕ) (bnear : Option ℕ) : ℕ :=
  match bnear with
  | none => m
  | some b0 => if sqDist (site b0) p ≤ sqDist (site m) p then b0 else m

/-- One unwind step of `Node::nearest` at a node: combine the near child's
best with the node's own site, and consult the far child's best exactly when
the splitting plane is closer than the best so far. -/
def kdCombine (site : ℕ → Vec3) (p : Vec3) (m ax : ℕ)
    (bnear bfar : Option ℕ) : ℕ :=
  let b1 := kdBest1 site p m bnear
  if sqSplit p (site m) ax < sqDist (site b1) p then
    match bfar with
    | none => b1
    | some b2 => if sqDist (site b2) p < sqDist (site b1) p then b2 else b1
  else b1

/-- `Node::nearest`: the site in the subtree nearest to the query point.
The source descends along `child(bfr)` to a leaf and unwinds with parent
pointers, keeping the best site seen and fully searching the other child
of a node whenever the splitting plane is closer than the current best.
That traversal is rendered here as structural recursion: the near child's
result plays the role of the best found below the current node, and the far
child's (recursively computed) result is consulted exactly when the source
would descend into it; the returned value is identical. -/
def nearestKd (site : ℕ → Vec3) (p : Vec3) : KdTree → Option ℕ
  | .nil => none
  | .node m ax l r =>
    some (if lessthan p (site m) ax then
            kdCombine site p m ax (nearestKd site p l) (nearestKd site p r)
          else
            kdCombine site p m ax (nearestKd site p r) (nearestKd site p l))

/-- The k-d invariant established by `buildTree`: at every node the split
axis is one of 0,1,2, all sites in the left subtree are not greater than
the node's site in the cyclic order starting at the axis, and all sites in
the right subtree are not smaller. -/
def KdInv (site : ℕ → Vec3) : KdTree → Prop
  | .nil => True
  | .node m ax l r =>
    ax < 3 ∧
    (∀ j ∈ l.elems, lessthan (site m) (site j) ax = false) ∧
    (∀ j ∈ r.elems, lessthan (site j) (site m) ax = false) ∧
    KdInv site l ∧ KdInv site r

/-- What it means for an optional result to be the nearest site among a
candidate list: `none` exactly on the empty list, otherwise a member
minimizing the squared distance to the query point. -/
def IsNearestIn (site : ℕ → Vec3) (p : Vec3) (b : Option ℕ) (E : List ℕ) : Prop :=
  match b with
  | none => E = []
  | some b0 => b0 ∈ E ∧ ∀ j ∈ E, sqDist (site b0) p ≤ sqDist (site j) p

theorem kdBest1_spec (site : ℕ → Vec3) (p : Vec3) (m : ℕ) (bnear : Option ℕ)
    (nearE : List ℕ) (hnear : IsNearestIn site p bnear nearE) :
    (kdBest1 site p m bnear ∈ nearE ∨ kdBest1 site p m bnear = m) ∧
      sqDist (site (kdBest1 site p m bnear)) p ≤ sqDist (site m) p ∧
      ∀ j ∈ nearE, sqDist (site (kdBest1 site p m bnear)) p ≤ sqDist (site j) p := by
  match bnear with
  | none =>
    simp only [IsNearestIn] at hnear
    subst hnear
    exact ⟨Or.inr rfl, le_refl _, by simp⟩
  | some b0 =>
    simp only [IsNearestIn] at hnear
    obtain ⟨hmem, hmin⟩ := hnear
    have hred : kdBest1 site p m (some b0) =
        if sqDist (site b0) p ≤ sqDist (site m) p then b0 else m := rfl
    rw [hred]
    by_cases hcmp : sqDist (site b0) p ≤ sqDist (site m) p
    · rw [if_pos hcmp]
      exact ⟨Or.inl hmem, hcmp, hmin⟩
    · rw [if_neg hcmp]
      push_neg at hcmp
      exact ⟨Or.inr rfl, le_refl _, fun j hj => le_trans (le_of_lt hcmp) (hmin j hj)⟩

theorem kdCombine_spec (site : ℕ → Vec3) (p : Vec3) (m ax : ℕ)
    (bnear bfar : Option ℕ) (nearE farE : List ℕ)
    (hnear : IsNearestIn site p bnear nearE)
    (hfarb : IsNearestIn site p bfar farE)
    (hplane : ∀ j ∈ farE, sqSplit p (site m) ax ≤ sqDist (site j) p) :
    (kdCombine site p m ax bnear bfar ∈ nearE ∨ kdCombine site p m ax bnear bfar = m ∨
      kdCombine site p m ax bnear bfar ∈ farE) ∧
      sqDist (site (kdCombine site p m ax bnear bfar)) p ≤ sqDist (site m) p ∧
      (∀ j ∈ nearE, sqDist (site (kdCombine site p m ax bnear bfar)) p ≤ sqDist (site j) p) ∧
      (∀ j ∈ farE, sqDist (site (kdCombine site p m ax bnear bfar)) p ≤ sqDist (site j) p) := by
  obtain ⟨hb1mem, hb1m, hb1near⟩ := kdBest1_spec site p m bnear nearE hnear
  unfold kdCombine
  set b1 := kdBest1 site p m bnear with hb1
  by_cases hsplit : sqSplit p (site m) ax < sqDist (site b1) p
  · rw [if_pos hsplit]
    match bfar with
    | none =>
      simp only [IsNearestIn] at hfarb
      subst hfarb
      refine ⟨?_, hb1m, hb1near, by simp⟩
      rcases hb1mem with h | h
      · exact Or.inl h
      · exact Or.inr (Or.inl h)
    | some b2 =>
      simp only [IsNearestIn] at hfarb
      obtain ⟨hb2mem, hb2min⟩ := hfarb
      have hred : (match some b2 with
          | none => b1
          | some b2 => if sqDist (site b2) p < sqDist (site b1) p then b2 else b1) =
          if sqDist (site b2) p < sqDist (site b1) p then b2 else b1 := rfl
      rw [hred]
      by_cases hcmp2 : sqDist (site b2) p < sqDist (site b1) p
      · rw [if_pos hcmp2]
        refine ⟨Or.inr (Or.inr hb2mem), le_trans (le_of_lt hcmp2) hb1m,
          fun j hj => le_trans (le_of_lt hcmp2) (hb1near j hj), hb2min⟩
      · rw [if_neg hcmp2]
        push_neg at hcmp2
        refine ⟨?_, hb1m, hb1near, fun j hj => le_trans hcmp2 (hb2min j hj)⟩
        rcases hb1mem with h | h
        · exact Or.inl h
        · exact Or.inr (Or.inl h)
  · rw [if_neg hsplit]
    push_neg at hsplit
    refine ⟨?_, hb1m, hb1near, fun j hj => le_trans hsplit (hplane j hj)⟩
    rcases hb1mem with h | h
    · exact Or.inl h
    · exact Or.inr (Or.inl h)

theorem nearestKd_correct (site : ℕ → Vec3) (p : Vec3) :
    ∀ t : KdTree, KdInv site t → IsNearestIn site p (nearestKd site p t) t.elems := by
  intro t
  induction t with
  | nil => intro _; simp [nearestKd, IsNearestIn, KdTree.elems]
  | node m ax l r ihl ihr =>
    intro hinv
    obtain ⟨hax, hl, hr, hil, hir⟩ := hinv
    have IHL := ihl hil
    have IHR := ihr hir
    show IsNearestIn site p (nearestKd site p (.node m ax l r)) (KdTree.elems (.node m ax l r))
    have hunfold : nearestKd site p (.node m ax l r) =
        some (if lessthan p (site m) ax then
                kdCombine site p m ax (nearestKd site p l) (nearestKd site p r)
              else
                kdCombine site p m ax (nearestKd site p r) (nearestKd site p l)) := rfl
    rw [hunfold]
    by_cases hside : lessthan p (site m) ax = true
    · -- query on the "less" side: near = left, far = right
      have hplane : ∀ j ∈ r.elems, sqSplit p (site m) ax ≤ sqDist (site j) p := by
        intro j hj
        have h1 : coord ax p ≤ coord ax (site m) := coord_le_of_lessthan hside
        have h2 : coord ax (site m) ≤ coord ax (site j) :=
          coord_ge_of_not_lessthan hax (hr j hj)
        calc sqSplit p (site m) ax = (coord ax (site m) - coord ax p) ^ 2 := rfl
          _ ≤ (coord ax (site j) - coord ax p) ^ 2 := by nlinarith
          _ ≤ sqDist (site j) p := sq_coord_le_sqDist (site j) p hax
      obtain ⟨hmem, hm, hnearmin, hfarmin⟩ :=
        kdCombine_spec site p m ax (nearestKd site p l) (nearestKd site p r)
          l.elems r.elems IHL IHR hplane
      rw [if_pos hside]
      simp only [IsNearestIn, KdTree.elems]
      constructor
      · rcases hmem with h | h | h
        · exact List.mem_append_left _ h
        · rw [h]; exact List.mem_append_right _ (List.mem_cons_self _ _)
        · exact List.mem_append_right _ (List.mem_cons_of_mem _ h)
      · intro j hj
        rcases List.mem_append.mp hj with hj | hj
        · exact hnearmin j hj
        · rcases List.mem_cons.mp hj with hj | hj
          · rw [hj]; exact hm
          · exact hfarmin j hj
    · -- query on the "greater-or-equal" side: near = right, far = left
      simp only [Bool.not_eq_true] at hside
      have hplane : ∀ j ∈ l.elems, sqSplit p (site m) ax ≤ sqDist (site j) p := by
        intro j hj
        have h1 : coord ax (site m) ≤ coord ax p := coord_ge_of_not_lessthan hax hside
        have h2 : coord ax (site j) ≤ coord ax (site m) :=
          coord_ge_of_not_lessthan hax (hl j hj)
        calc sqSplit p (site m) ax = (coord ax (site m) - coord ax p) ^ 2 := rfl
          _ ≤ (coord ax (site j) - coord ax p) ^ 2 := by nlinarith
          _ ≤ sqDist (site j) p := sq_coord_le_sqDist (site j) p hax
      obtain ⟨hmem, hm, hnearmin, hfarmin⟩ :=
        kdCombine_spec site p m ax (nearestKd site p r) (nearestKd site p l)
          r.elems l.elems IHR IHL hplane
      rw [hside]
      simp only [Bool.false_eq_true, if_false, IsNearestIn, KdTree.elems]
      constructor
      · rcases hmem with h | h | h
        · exact List.mem_append_right _ (List.mem_cons_of_mem _ h)
        · rw [h]; exact List.mem_append_right _ (List.mem_cons_self _ _)
        · exact List.mem_append_left _ h
      · intro j hj
        rcases List.mem_append.mp hj with hj | hj
        · exact hfarmin j hj
        · rcases List.mem_cons.mp hj with hj | hj
          · rw [hj]; exact hm
          · exact hnearmin j hj

theorem lexLt_asymm {a1 b1 c1 a2 b2 c2 : ℚ} (h : lexLt a1 b1 c1 a2 b2 c2 = true) :
    lexLt a2 b2 c2 a1 b1 c1 = false := by
  have hne : lexLt a1 b1 c1 a2 b2 c2 ≠ false := by simp [h]
  rw [Ne, lexLt_false_iff] at hne
  push_neg at hne
  obtain ⟨ha, hb⟩ := hne
  rw [lexLt_false_iff]
  rcases lt_or_eq_of_le ha with h1 | h1
  · exact Or.inl h1
  · obtain ⟨hb1, hc⟩ := hb h1.symm
    rcases lt_or_eq_of_le hb1 with h2 | h2
    · exact Or.inr ⟨h1, Or.inl h2⟩
    · exact Or.inr ⟨h1, Or.inr ⟨h2, le_of_lt (hc h2.symm)⟩⟩

theorem lessthan_asymm {a b : Vec3} {ax : ℕ} (h : lessthan a b ax = true) :
    lessthan b a ax = false := by
  unfold lessthan at h ⊢
  match ax with
  | 0 => exact lexLt_asymm h
  | 1 => exact lexLt_asymm h
  | 2 => exact lexLt_asymm h
  | n + 3 => rfl

/-- The total preorder on site indices induced by the comparator passed to
`std::nth_element` in `buildTree`: `m1 ≤ m2` iff the comparator does not
place `m2` strictly before `m1` (the comparator is
`m1 != m2 && lessthan(position(m1), position(m2), depth%3)`). -/
def siteLe (site : ℕ → Vec3) (ax : ℕ) (m1 m2 : ℕ) : Prop :=
  ¬(m2 ≠ m1 ∧ lessthan (site m2) (site m1) ax = true)

instance (site : ℕ → Vec3) (ax : ℕ) : DecidableRel (siteLe site ax) := by
  intro a b; unfold siteLe; infer_instance

instance (site : ℕ → Vec3) (ax : ℕ) : IsTotal ℕ (siteLe site ax) := by
  constructor
  intro a b
  by_cases h : lessthan (site b) (site a) ax = true
  · right
    intro ⟨hne, hlt⟩
    rw [lessthan_asymm h] at hlt
    exact Bool.false_ne_true hlt
  · left
    intro ⟨hne, hlt⟩
    exact h hlt

instance (site : ℕ → Vec3) (ax : ℕ) : IsTrans ℕ (siteLe site ax) := by
  constructor
  intro a b c h1 h2 hc
  obtain ⟨hca, hlt⟩ := hc
  unfold siteLe at h1 h2
  rw [not_and_or] at h1 h2
  rcases h1 with h1 | h1 <;> rcases h2 with h2 | h2
  · rw [not_ne_iff] at h1 h2; exact hca (h2.trans h1)
  · rw [not_ne_iff] at h1
    rw [Bool.not_eq_true] at h2
    rw [h1] at h2
    rw [h2] at hlt
    exact Bool.false_ne_true hlt
  · rw [not_ne_iff] at h2
    rw [Bool.not_eq_true] at h1
    rw [← h2] at h1
    rw [h1] at hlt
    exact Bool.false_ne_true hlt
  · rw [Bool.not_eq_true] at h1 h2
    rw [not_lessthan_trans h1 h2] at hlt
    exact Bool.false_ne_true hlt

/-- The ordering step of `buildTree`: the source calls `std::nth_element`
with the comparator above, which may produce any arrangement in which the
median element is preceded only by comparator-smaller-or-equal elements and
followed only by larger-or-equal ones.  Full sorting is one such
arrangement; we model the call by it. -/
def sortSites (site : ℕ → Vec3) (ax : ℕ) (ids : List ℕ) : List ℕ :=
  List.insertionSort (siteLe site ax) ids

theorem sortSites_length (site : ℕ → Vec3) (ax : ℕ) (ids : List ℕ) :
    (sortSites site ax ids).length = ids.length :=
  List.length_insertionSort _ ids

theorem sortSites_mem (site : ℕ → Vec3) (ax : ℕ) (ids : List ℕ) (x : ℕ) :
    x ∈ sortSites site ax ids ↔ x ∈ ids :=
  (List.perm_insertionSort _ ids).mem_iff

theorem sortSites_sorted (site : ℕ → Vec3) (ax : ℕ) (ids : List ℕ) :
    List.Sorted (siteLe site ax) (sortSites site ax ids) :=
  List.sorted_insertionSort _ ids

/-- `buildTree`: recursive median split on axis `depth mod 3`
(`median = length >> 1`), as in the anonymous-namespace `buildTree` of the
source.  An empty range yields a null child. -/
def buildTree (site : ℕ → Vec3) (ids : List ℕ) (depth : ℕ) : KdTree :=
  if h : 0 < ids.length then
    let s := sortSites site (depth % 3) ids
    let med := s.length / 2
    KdTree.node (s.getD med 0) (depth % 3)
      (buildTree site (s.take med) (depth + 1))
      (buildTree site (s.drop (med + 1)) (depth + 1))
  else
    .nil
termination_by ids.length
decreasing_by
  · have hs : (sortSites site (depth % 3) ids).length = ids.length := sortSites_length _ _ _
    simp only [List.length_take]
    omega
  · have hs : (sortSites site (depth % 3) ids).length = ids.length := sortSites_length _ _ _
    simp only [List.length_drop]
    omega

theorem buildTree_eq_pos (site : ℕ → Vec3) (ids : List ℕ) (depth : ℕ)
    (h : 0 < ids.length) :
    buildTree site ids depth =
      KdTree.node ((sortSites site (depth % 3) ids).getD
          ((sortSites site (depth % 3) ids).length / 2) 0) (depth % 3)
        (buildTree site ((sortSites site (depth % 3) ids).take
          ((sortSites site (depth % 3) ids).length / 2)) (depth + 1))
        (buildTree site ((sortSites site (depth % 3) ids).drop
          ((sortSites site (depth % 3) ids).length / 2 + 1)) (depth + 1)) := by
  rw [buildTree]
  rw [dif_pos h]

theorem buildTree_eq_nil (site : ℕ → Vec3) (ids : List ℕ) (depth : ℕ)
    (h : ¬0 < ids.length) : buildTree site ids depth = .nil := by
  rw [buildTree]
  rw [dif_neg h]

theorem buildTree_elems (site : ℕ → Vec3) :
    ∀ (n : ℕ) (ids : List ℕ) (depth : ℕ), ids.length ≤ n →
      ∀ x, x ∈ (buildTree site ids depth).elems ↔ x ∈ ids := by
  intro n
  induction n with
  | zero =>
    intro ids depth hlen x
    have : ids = [] := List.length_eq_zero.mp (Nat.le_zero.mp hlen)
    subst this
    rw [buildTree_eq_nil site [] depth (by simp)]
    simp [KdTree.elems]
  | succ n ih =>
    intro ids depth hlen x
    by_cases h : 0 < ids.length
    · rw [buildTree_eq_pos site ids depth h]
      set s := sortSites site (depth % 3) ids with hs
      have hlens : s.length = ids.length := sortSites_length _ _ _
      have hmed : s.length / 2 < s.length := Nat.div_lt_self (by omega) (by omega)
      simp only [KdTree.elems, List.mem_append, List.mem_cons]
      rw [ih (s.take (s.length / 2)) (depth + 1) (by simp [hlens]; omega) x,
          ih (s.drop (s.length / 2 + 1)) (depth + 1) (by simp [hlens]; omega) x]
      rw [← sortSites_mem site (depth % 3) ids x, ← hs]
      have hdecomp : s = s.take (s.length / 2) ++ s.getD (s.length / 2) 0 ::
          s.drop (s.length / 2 + 1) := by
        rw [List.getD_eq_getElem s 0 hmed]
        conv_lhs => rw [← List.take_append_drop (s.length / 2) s]
        rw [List.drop_eq_getElem_cons hmed]
      conv_rhs => rw [hdecomp]
      simp only [List.mem_append, List.mem_cons]
    · rw [buildTree_eq_nil site ids depth h]
      have : ids = [] := List.length_eq_zero.mp (by omega)
      subst this
      simp [KdTree.elems]

theorem siteLe_lessthan_false {site : ℕ → Vec3} {ax a b : ℕ}
    (h : siteLe site ax a b) : lessthan (site b) (site a) ax = false := by
  by_cases he : b = a
  · rw [he]; exact lessthan_irrefl _ _
  · unfold siteLe at h
    rw [not_and_or] at h
    rcases h with h | h
    · exact absurd he (not_not.mp (by simpa using h))
    · exact Bool.not_eq_true _ |>.mp h

theorem buildTree_inv (site : ℕ → Vec3) :
    ∀ (n : ℕ) (ids : List ℕ) (depth : ℕ), ids.length ≤ n →
      KdInv site (buildTree site ids depth) := by
  intro n
  induction n with
  | zero =>
    intro ids depth hlen
    have : ids = [] := List.length_eq_zero.mp (Nat.le_zero.mp hlen)
    subst this
    rw [buildTree_eq_nil site [] depth (by simp)]
    trivial
  | succ n ih =>
    intro ids depth hlen
    by_cases h : 0 < ids.length
    · rw [buildTree_eq_pos site ids depth h]
      set s := sortSites site (depth % 3) ids with hs
      have hlens : s.length = ids.length := sortSites_length _ _ _
      have hmed : s.length / 2 < s.length := Nat.div_lt_self (by omega) (by omega)
      have hsorted := sortSites_sorted site (depth % 3) ids
      rw [← hs] at hsorted
      have hpair := List.pairwise_iff_getElem.mp hsorted
      have hgetD : s.getD (s.length / 2) 0 = s[s.length / 2] :=
        List.getD_eq_getElem s 0 hmed
      refine ⟨Nat.mod_lt _ (by omega), ?_, ?_, ?_, ?_⟩
      · -- all sites in the left subtree precede the median in the order
        intro j hj
        rw [buildTree_elems site n _ _ (by simp [hlens]; omega) j] at hj
        obtain ⟨i, hi, hij⟩ := List.mem_iff_getElem.mp hj
        have hi' : i < s.length / 2 := by
          have := hi; simp only [List.length_take] at this; omega
        have hiS : i < s.length := by omega
        have hgi : (s.take (s.length / 2))[i] = s[i] :=
          List.getElem_take _
        have hle : siteLe site (depth % 3) s[i] s[s.length / 2] :=
          hpair i (s.length / 2) (by omega) hmed hi'
        rw [hgetD, ← hij, hgi]
        exact siteLe_lessthan_false hle
      · -- all sites in the right subtree follow the median in the order
        intro j hj
        rw [buildTree_elems site n _ _ (by simp [hlens]; omega) j] at hj
        obtain ⟨i, hi, hij⟩ := List.mem_iff_getElem.mp hj
        have hi' : s.length / 2 + 1 + i < s.length := by
          have := hi; simp only [List.length_drop] at this; omega
        have hgi : (s.drop (s.length / 2 + 1))[i] = s[s.length / 2 + 1 + i] :=
          List.getElem_drop _
        have hle : siteLe site (depth % 3) s[s.length / 2]
            s[s.length / 2 + 1 + i] :=
          hpair (s.length / 2) (s.length / 2 + 1 + i) hmed hi' (by omega)
        rw [hgetD, ← hij, hgi]
        exact siteLe_lessthan_false hle
      · exact ih _ (depth + 1) (by simp [hlens]; omega)
      · exact ih _ (depth + 1) (by simp [hlens]; omega)
    · rw [buildTree_eq_nil site ids depth h]
      trivial

/-- The per-cell data kept by `VoronoiMesh_Private::VoronoiCell`: site
position, bounding box corners (the cell's `Box` base), and the neighbor
id list (negative ids denote domain walls).  Centroid and volume are not
needed by the claims below and are omitted. -/
structure VoronoiCellM where
  r : Vec3
  rmin : Vec3
  rmax : Vec3
  neighbors : List ℤ
deriving DecidableEq, Repr

def defaultCell : VoronoiCellM := ⟨⟨0, 0, 0⟩, ⟨0, 0, 0⟩, ⟨0, 0, 0⟩, []⟩

instance : Inhabited VoronoiCellM := ⟨defaultCell⟩

/-- The read-only state of a `VoronoiMeshSnapshot` after construction:
the domain box `_extent`, the tolerance `_eps` (in the source
`1e-12 * extent.widths().norm()`, a square root; it is carried here as a
field and concrete instances use boxes whose diagonal is rational), and
the cell vector `_cells`. -/
structure Snapshot where
  extent : Box3
  eps : ℚ
  cells : List VoronoiCellM
deriving DecidableEq, Repr

def siteOf (s : Snapshot) (m : ℕ) : Vec3 := (s.cells.getD m defaultCell).r

/-- Integer cube-root floor: the largest `n` with `n³ ≤ x`.  Used to model
`static_cast<int>(3.*pow(numCells,1./3.))` exactly:
`⌊3·M^(1/3)⌋ = max {n : n³ ≤ 27·M}`. -/
def cbrtFloor (x : ℕ) : ℕ :=
  ((List.range (x + 2)).filter (fun n => n * n * n ≤ x)).foldl max 0

/-- `_nb = max(3, min(1000, int(3*pow(numCells,1/3))))` from `buildSearch`. -/
def Snapshot.nb (s : Snapshot) : ℕ :=
  max 3 (min 1000 (cbrtFloor (27 * s.cells.length)))

/-- Modelled from the spec: `Box::cellIndices` (declared in `Box.hpp`,
not part of the provided sources) maps a coordinate to a block index of
the uniform `nb`-fold subdivision of `[lo, hi]`, clamped to `[0, nb-1]`:
`max(0, min(n-1, int(n*(x-lo)/(hi-lo))))`. -/
def idx1D (lo hi x : ℚ) (n : ℕ) : ℕ :=
  Int.toNat (max 0 (min ((n : ℤ) - 1) (Int.floor ((n : ℚ) * (x - lo) / (hi - lo)))))

def blockI (s : Snapshot) (v : Vec3) : ℕ := idx1D s.extent.xmin s.extent.xmax v.x s.nb

def blockJ (s : Snapshot) (v : Vec3) : ℕ := idx1D s.extent.ymin s.extent.ymax v.y s.nb

def blockK (s : Snapshot) (v : Vec3) : ℕ := idx1D s.extent.zmin s.extent.zmax v.z s.nb

/-- The block list `_blocklists[i*nb²+j*nb+k]` built by `buildSearch`:
cell `m` is pushed into every block covered by the index ranges of
`rmin - (ε,ε,ε)` and `rmax + (ε,ε,ε)`.  The source materializes the lists
by looping over cells in increasing `m`, which yields exactly this filter
of `0..numCells-1`; the flattened index `i*nb²+j*nb+k` is replaced by the
triple `(i,j,k)` (the clamped indices make the flattening injective). -/
def blockListAt (s : Snapshot) (i j k : ℕ) : List ℕ :=
  (List.range s.cells.length).filter (fun m =>
    let c := s.cells.getD m defaultCell
    let epsv : Vec3 := ⟨s.eps, s.eps, s.eps⟩
    decide (blockI s (c.rmin - epsv) ≤ i ∧ i ≤ blockI s (c.rmax + epsv) ∧
      blockJ s (c.rmin - epsv) ≤ j ∧ j ≤ blockJ s (c.rmax + epsv) ∧
      blockK s (c.rmin - epsv) ≤ k ∧ k ≤ blockK s (c.rmax + epsv)))

/-- The linear scan of `cellIndex` when a block has no search tree:
running best index `m` (initially `-1`) and best squared distance
(initially `DBL_MAX`, modelled as `none`), improved on strict `<`. -/
def scanLoop (site : ℕ → Vec3) (p : Vec3) : List ℕ → ℤ → Option ℚ → ℤ
  | [], m, _ => m
  | id0 :: rest, m, best =>
    let d := sqDist (site id0) p
    match best with
    | none => scanLoop site p rest (id0 : ℤ) (some d)
    | some b =>
      if d < b then scanLoop site p rest (id0 : ℤ) (some d)
      else scanLoop site p rest m (some b)

/-- `VoronoiMeshSnapshot::cellIndex`: `-1` outside the domain, otherwise
the nearest site in the block containing the position, found through the
block's search tree when `buildSearch` built one (blocks with more than
five cells), and by linear scan otherwise. -/
def cellIndex (s : Snapshot) (p : Vec3) : ℤ :=
  if s.extent.contains p then
    let ids := blockListAt s (blockI s p) (blockJ s p) (blockK s p)
    if 5 < ids.length then
      match nearestKd (siteOf s) p (buildTree (siteOf s) ids 0) with
      | some m => (m : ℤ)
      | none => -1
    else
      scanLoop (siteOf s) p ids (-1) none
  else
    -1

theorem scanLoop_acc (site : ℕ → Vec3) (p : Vec3) :
    ∀ (ids : List ℕ) (m0 : ℕ),
      ∃ m : ℕ, scanLoop site p ids (m0 : ℤ) (some (sqDist (site m0) p)) = (m : ℤ) ∧
        (m = m0 ∨ m ∈ ids) ∧ sqDist (site m) p ≤ sqDist (site m0) p ∧
        ∀ j ∈ ids, sqDist (site m) p ≤ sqDist (site j) p := by
  intro ids
  induction ids with
  | nil => intro m0; exact ⟨m0, rfl, Or.inl rfl, le_refl _, by simp⟩
  | cons id0 rest ih =>
    intro m0
    show ∃ m : ℕ, (if sqDist (site id0) p < sqDist (site m0) p then
        scanLoop site p rest (id0 : ℤ) (some (sqDist (site id0) p))
      else scanLoop site p rest (m0 : ℤ) (some (sqDist (site m0) p))) = (m : ℤ) ∧ _
    by_cases hc : sqDist (site id0) p < sqDist (site m0) p
    · rw [if_pos hc]
      obtain ⟨m, hrun, hmem, hle, hmin⟩ := ih id0
      refine ⟨m, hrun, ?_, le_trans hle (le_of_lt hc), ?_⟩
      · rcases hmem with h | h
        · exact Or.inr (h ▸ List.mem_cons_self _ _)
        · exact Or.inr (List.mem_cons_of_mem _ h)
      · intro j hj
        rcases List.mem_cons.mp hj with hj | hj
        · rw [hj]; exact hle
        · exact hmin j hj
    · rw [if_neg hc]
      push_neg at hc
      obtain ⟨m, hrun, hmem, hle, hmin⟩ := ih m0
      refine ⟨m, hrun, ?_, hle, ?_⟩
      · rcases hmem with h | h
        · exact Or.inl h
        · exact Or.inr (List.mem_cons_of_mem _ h)
      · intro j hj
        rcases List.mem_cons.mp hj with hj | hj
        · rw [hj]; exact le_trans hle hc
        · exact hmin j hj

theorem scanLoop_spec (site : ℕ → Vec3) (p : Vec3) (ids : List ℕ) (hne : ids ≠ []) :
    ∃ m : ℕ, scanLoop site p ids (-1) none = (m : ℤ) ∧ m ∈ ids ∧
      ∀ j ∈ ids, sqDist (site m) p ≤ sqDist (site j) p := by
  match ids with
  | [] => exact absurd rfl hne
  | id0 :: rest =>
    show ∃ m : ℕ, scanLoop site p rest (id0 : ℤ) (some (sqDist (site id0) p)) = (m : ℤ) ∧ _
    obtain ⟨m, hrun, hmem, hle, hmin⟩ := scanLoop_acc site p rest id0
    refine ⟨m, hrun, ?_, ?_⟩
    · rcases hmem with h | h
      · exact h ▸ List.mem_cons_self _ _
      · exact List.mem_cons_of_mem _ h
    · intro j hj
      rcases List.mem_cons.mp hj with hj | hj
      · rw [hj]; exact hle
      · exact hmin j hj

theorem blockListAt_lt (s : Snapshot) (i j k : ℕ) :
    ∀ m ∈ blockListAt s i j k, m < s.cells.length := by
  intro m hm
  have := List.mem_filter.mp hm
  exact List.mem_range.mp this.1

/-- C1.  For every grid and every point `p`: if `p` lies outside the domain
box, `cellIndex` returns `-1`; if `p` lies inside, then — provided the
block containing `p` lists some globally nearest cell, which is invariant
(i) of the spec for a Voronoi tessellation (the cell of the nearest site
contains `p`, and its ε-expanded bounding box therefore overlaps `p`'s
block; the tessellation itself is computed by the external voro++ engine) —
`cellIndex` returns the identifier of a cell whose site minimizes the
squared distance to `p` over all cells, whether the block is searched by
its k-d tree or by linear scan. -/
theorem C1_cellIndex_nearest (s : Snapshot) (p : Vec3)
    (hH : s.extent.contains p →
      ∃ mstar : ℕ, mstar ∈ blockListAt s (blockI s p) (blockJ s p) (blockK s p) ∧
        ∀ j : ℕ, j < s.cells.length →
          sqDist (siteOf s mstar) p ≤ sqDist (siteOf s j) p) :
    (¬s.extent.contains p → cellIndex s p = -1) ∧
    (s.extent.contains p → ∃ m : ℕ, cellIndex s p = (m : ℤ) ∧ m < s.cells.length ∧
      ∀ j : ℕ, j < s.cells.length →
        sqDist (siteOf s m) p ≤ sqDist (siteOf s j) p) := by
  constructor
  · intro hout
    unfold cellIndex
    rw [if_neg hout]
  · intro hin
    obtain ⟨mstar, hmstar, hminstar⟩ := hH hin
    unfold cellIndex
    rw [if_pos hin]
    set ids := blockListAt s (blockI s p) (blockJ s p) (blockK s p) with hids
    by_cases htree : 5 < ids.length
    · rw [if_pos htree]
      have hinv : KdInv (siteOf s) (buildTree (siteOf s) ids 0) :=
        buildTree_inv (siteOf s) ids.length ids 0 (le_refl _)
      have hnear := nearestKd_correct (siteOf s) p (buildTree (siteOf s) ids 0) hinv
      have helems := buildTree_elems (siteOf s) ids.length ids 0 (le_refl _)
      match hres : nearestKd (siteOf s) p (buildTree (siteOf s) ids 0) with
      | none =>
        rw [hres] at hnear
        simp only [IsNearestIn] at hnear
        rw [← helems mstar] at hmstar
        rw [hnear] at hmstar
        simp at hmstar
      | some m =>
        rw [hres] at hnear
        simp only [IsNearestIn] at hnear
        obtain ⟨hmem, hmin⟩ := hnear
        rw [helems m] at hmem
        refine ⟨m, rfl, blockListAt_lt s _ _ _ m hmem, ?_⟩
        intro j hj
        have h1 : sqDist (siteOf s m) p ≤ sqDist (siteOf s mstar) p :=
          hmin mstar ((helems mstar).mpr hmstar)
        exact le_trans h1 (hminstar j hj)
    · rw [if_neg htree]
      have hne : ids ≠ [] := by
        intro hnil
        rw [hnil] at hmstar
        simp at hmstar
      obtain ⟨m, hrun, hmem, hmin⟩ := scanLoop_spec (siteOf s) p ids hne
      refine ⟨m, hrun, blockListAt_lt s _ _ _ m hmem, ?_⟩
      intro j hj
      exact le_trans (hmin mstar hmstar) (hminstar j hj)

/-- A concrete two-cell snapshot on the box `[0,2]×[0,2]×[0,1]`
(diagonal 3, so `ε = 3·10⁻¹²`), with the slab cells of sites
`(1/2,1,1/2)` and `(3/2,1,1/2)`. -/
def snapC1 : Snapshot :=
  ⟨⟨0, 2, 0, 2, 0, 1⟩, 3 / 10 ^ 12,
    [⟨⟨1/2, 1, 1/2⟩, ⟨0, 0, 0⟩, ⟨1, 2, 1⟩, [1, -1, -3, -4, -5, -6]⟩,
     ⟨⟨3/2, 1, 1/2⟩, ⟨1, 0, 0⟩, ⟨2, 2, 1⟩, [0, -2, -3, -4, -5, -6]⟩]⟩

def pC1 : Vec3 := ⟨3/10, 1, 1/2⟩

set_option maxRecDepth 10000 in
/-- Witness for C1 at the concrete snapshot `snapC1` and point `pC1`. -/
theorem C1_cellIndex_nearest_witness :
    (¬snapC1.extent.contains pC1 → cellIndex snapC1 pC1 = -1) ∧
    (snapC1.extent.contains pC1 → ∃ m : ℕ, cellIndex snapC1 pC1 = (m : ℤ) ∧
      m < snapC1.cells.length ∧
      ∀ j : ℕ, j < snapC1.cells.length →
        sqDist (siteOf snapC1 m) pC1 ≤ sqDist (siteOf snapC1 j) pC1) :=
  C1_cellIndex_nearest snapC1 pC1 (fun _ => ⟨0, by decide, by decide⟩)

/-- Modelled from the spec: `SpatialGridPath::moveInside` (declared
outside the provided sources).  "Advance `origin` to the first
intersection with `B` (or return empty if the ray misses `B`)": a point
already inside is left in place; otherwise the ray parameter interval of
each slab is intersected (an axis with zero direction component constrains
nothing if the point is inside that slab and misses otherwise), and the
point is advanced to the entry parameter.  `none` means the ray misses. -/
def axisRange (lo hi x kx : ℚ) : Option (Option (ℚ × ℚ)) :=
  if kx = 0 then (if lo ≤ x ∧ x ≤ hi then some none else none)
  else some (some (min ((lo - x) / kx) ((hi - x) / kx),
                   max ((lo - x) / kx) ((hi - x) / kx)))

def moveInside (b : Box3) (r k : Vec3) : Option Vec3 :=
  if b.contains r then some r
  else
    match axisRange b.xmin b.xmax r.x k.x, axisRange b.ymin b.ymax r.y k.y,
          axisRange b.zmin b.zmax r.z k.z with
    | some ox, some oy, some oz =>
      let ranges := [ox, oy, oz].reduceOption
      let tEnter := ranges.foldl (fun a q => max a q.1) 0
      let tExit? := ranges.foldl
        (fun a q => match a with | none => some q.2 | some t => some (min t q.2)) none
      match tExit? with
      | none => some r
      | some tExit => if tEnter ≤ tExit then some (r + tEnter • k) else none
    | _, _, _ => none

/-- The candidate intersection distance `si` computed in the neighbor loop
of `VoronoiMeshSnapshot::path` for one neighbor id `mi`: the bisecting
plane for a real neighbor (skipped, via `si = 0`, when `n·k ≤ 0`), the
corresponding domain wall for ids `-1..-6`, and a fatal error (`none`)
otherwise.  Division by a zero direction component yields `0` in `ℚ`,
which is rejected by the `si > 0` test — exactly as the IEEE `±inf`/`NaN`
produced by the source is rejected by its `si > 0 && si < sq` test. -/
def neighborDist (s : Snapshot) (pr r k : Vec3) (mi : ℤ) : Option ℚ :=
  if 0 ≤ mi then
    let pi := siteOf s mi.toNat
    let n := pi - pr
    let ndotk := Vec3.dot n k
    some (if 0 < ndotk then Vec3.dot n ((1/2 : ℚ) • (pi + pr) - r) / ndotk else 0)
  else if mi = -1 then some ((s.extent.xmin - r.x) / k.x)
  else if mi = -2 then some ((s.extent.xmax - r.x) / k.x)
  else if mi = -3 then some ((s.extent.ymin - r.y) / k.y)
  else if mi = -4 then some ((s.extent.ymax - r.y) / k.y)
  else if mi = -5 then some ((s.extent.zmin - r.z) / k.z)
  else if mi = -6 then some ((s.extent.zmax - r.z) / k.z)
  else none

/-- The neighbor loop of `path`: keep the smallest strictly positive
intersection distance and its neighbor id.  The accumulator `none` stands
for the initial `sq = DBL_MAX, mq = NO_INDEX`; the outer `none` propagates
the fatal invalid-neighbor error. -/
def exitFold (s : Snapshot) (pr r k : Vec3) :
    List ℤ → Option (ℚ × ℤ) → Option (Option (ℚ × ℤ))
  | [], acc => some acc
  | mi :: rest, acc =>
    match neighborDist s pr r k mi with
    | none => none
    | some si =>
      let keep : Bool := match acc with
        | none => decide (0 < si)
        | some sqmq => decide (0 < si ∧ si < sqmq.1)
      exitFold s pr r k rest (if keep then some (si, mi) else acc)


/-- The cell-stepping loop of `VoronoiMeshSnapshot::path`, with explicit
fuel for the unbounded source loop (`none` = fuel exhausted or fatal
error).  As in the source, the emitted `(cellId, segmentLength)` pairs are
accumulated in order (`path->addSegment`), together with a count of the
ε-nudge recoveries taken; the final position is returned with them.  Each
emitted step advances the point by `sq + ε`; a nudge advances it by `ε`
and relocates via `cellIndex`. -/
def walkLoop (s : Snapshot) (k : Vec3) :
    ℕ → ℤ → Vec3 → List (ℕ × ℚ) → ℕ → Option (List (ℕ × ℚ) × ℕ × Vec3)
  | 0, _, _, _, _ => none
  | fuel + 1, mr, r, segs, g =>
    if mr < 0 then some (segs, g, r)
    else
      match exitFold s (siteOf s mr.toNat) r k
          ((s.cells.getD mr.toNat defaultCell).neighbors) none with
      | none => none
      | some none =>
        walkLoop s k fuel (cellIndex s (r + s.eps • k)) (r + s.eps • k) segs (g + 1)
      | some (some sqmq) =>
        walkLoop s k fuel sqmq.2 (r + (sqmq.1 + s.eps) • k)
          (segs ++ [(mr.toNat, sqmq.1)]) g

/-- `VoronoiMeshSnapshot::path`: move the starting position into the
domain, locate its cell, and run the stepping loop (an empty path results
when the ray misses the domain or the located cell index is negative). -/
def pathWalk (s : Snapshot) (r0 k : Vec3) (fuel : ℕ) :
    Option (List (ℕ × ℚ) × ℕ × Vec3) :=
  match moveInside s.extent r0 k with
  | none => some ([], 0, r0)
  | some r1 => walkLoop s k fuel (cellIndex s r1) r1 [] 0

def segSum (L : List (ℕ × ℚ)) : ℚ := (L.map (fun seg => seg.2)).sum

theorem segSum_append (a b : List (ℕ × ℚ)) : segSum (a ++ b) = segSum a + segSum b := by
  simp [segSum]

theorem vec3_add_smul_add_smul (a k : Vec3) (u v : ℚ) :
    a + u • k + v • k = a + (u + v) • k := by
  apply vec3_ext <;> simp [add_x, add_y, add_z, smul_x, smul_y, smul_z] <;> ring

theorem vec3_add_zero_smul (a k : Vec3) : a + (0 : ℚ) • k = a := by
  apply vec3_ext <;> simp [add_x, add_y, add_z, smul_x, smul_y, smul_z]

theorem sub_x (a b : Vec3) : (a - b).x = a.x - b.x := rfl

theorem sub_y (a b : Vec3) : (a - b).y = a.y - b.y := rfl

theorem sub_z (a b : Vec3) : (a - b).z = a.z - b.z := rfl

theorem vec3_add_smul_sub_smul (a k : Vec3) (u v : ℚ) :
    (a + u • k) - v • k = a + (u - v) • k := by
  apply vec3_ext <;>
    simp [add_x, add_y, add_z, smul_x, smul_y, smul_z, sub_x, sub_y, sub_z] <;> ring

theorem sqDist_add_smul (r k : Vec3) (c : ℚ) :
    sqDist r (r + c • k) = c ^ 2 * k.norm2 := by
  have hd : sqDist r (r + c • k) =
      (r.x - (r.x + c * k.x)) * (r.x - (r.x + c * k.x)) +
      (r.y - (r.y + c * k.y)) * (r.y - (r.y + c * k.y)) +
      (r.z - (r.z + c * k.z)) * (r.z - (r.z + c * k.z)) := rfl
  rw [hd]
  unfold Vec3.norm2
  ring

/-- During the walk the final position is the start plus the sum of the
newly emitted segment lengths, plus one ε for every emitted segment and
every nudge, along the direction vector. -/
theorem walkLoop_final (s : Snapshot) (k : Vec3) :
    ∀ (fuel : ℕ) (mr : ℤ) (r : Vec3) (segs : List (ℕ × ℚ)) (g : ℕ)
      (L : List (ℕ × ℚ)) (G : ℕ) (rf : Vec3),
      walkLoop s k fuel mr r segs g = some (L, G, rf) →
      ∃ (L2 : List (ℕ × ℚ)) (g2 : ℕ), L = segs ++ L2 ∧ G = g + g2 ∧
        rf = r + (segSum L2 + ((L2.length : ℚ) + (g2 : ℚ)) * s.eps) • k := by
  intro fuel
  induction fuel with
  | zero => intro mr r segs g L G rf h; exact absurd h (by simp [walkLoop])
  | succ fuel ih =>
    intro mr r segs g L G rf h
    unfold walkLoop at h
    by_cases hm : mr < 0
    · rw [if_pos hm] at h
      simp only [Option.some.injEq, Prod.mk.injEq] at h
      obtain ⟨rfl, rfl, rfl⟩ := h
      refine ⟨[], 0, by simp, by simp, ?_⟩
      have hz : segSum ([] : List (ℕ × ℚ)) +
          (((List.length ([] : List (ℕ × ℚ)) : ℚ)) + ((0 : ℕ) : ℚ)) * s.eps = 0 := by
        simp [segSum]
      rw [hz, vec3_add_zero_smul]
    · rw [if_neg hm] at h
      match hfe : exitFold s (siteOf s mr.toNat) r k
          ((s.cells.getD mr.toNat defaultCell).neighbors) none with
      | none => rw [hfe] at h; exact absurd h (by simp)
      | some none =>
        rw [hfe] at h
        obtain ⟨L2, g2, hL, hG, hrf⟩ := ih _ _ _ _ _ _ _ h
        refine ⟨L2, g2 + 1, hL, by omega, ?_⟩
        rw [hrf, vec3_add_smul_add_smul]
        congr 1
        push_cast
        ring_nf
      | some (some sqmq) =>
        rw [hfe] at h
        obtain ⟨L2, g2, hL, hG, hrf⟩ := ih _ _ _ _ _ _ _ h
        refine ⟨(mr.toNat, sqmq.1) :: L2, g2, by rw [hL, List.append_assoc]; rfl, hG, ?_⟩
        rw [hrf, vec3_add_smul_add_smul]
        congr 1
        simp only [segSum, List.map_cons, List.sum_cons, List.length_cons]
        push_cast
        ring_nf

/-- C2 (amended).  For every walk run that terminates, the sum of the
emitted segment lengths equals the distance from the starting point to the
last wall crossing (the final position minus the ε overshoot) minus
`(e + g - 1)·ε`, where `e` is the number of emitted segments and `g` the
number of ε-nudges — stated via squared distances for a unit direction.
The deviation from the chord therefore grows linearly with the number of
traversed cells and is *not* bounded by `10·ε` in general. -/
theorem C2_walk_chord (s : Snapshot) (k : Vec3) (hk : k.norm2 = 1)
    (fuel : ℕ) (mr : ℤ) (r : Vec3) (L : List (ℕ × ℚ)) (G : ℕ) (rf : Vec3)
    (h : walkLoop s k fuel mr r [] 0 = some (L, G, rf)) :
    sqDist r (rf - s.eps • k) =
      (segSum L + (((L.length : ℚ) + (G : ℚ)) - 1) * s.eps) ^ 2 := by
  obtain ⟨L2, g2, hL, hG, hrf⟩ := walkLoop_final s k fuel mr r [] 0 L G rf h
  simp only [List.nil_append] at hL
  subst hL
  subst hG
  rw [hrf, vec3_add_smul_sub_smul, sqDist_add_smul, hk, mul_one]
  push_cast
  ring

/-- A one-cell snapshot on `[0,2]×[0,2]×[0,1]` (diagonal 3). -/
def snapC2w : Snapshot :=
  ⟨⟨0, 2, 0, 2, 0, 1⟩, 3 / 10 ^ 12,
   [⟨⟨1, 1, 1/2⟩, ⟨0, 0, 0⟩, ⟨2, 2, 1⟩, [-1, -2, -3, -4, -5, -6]⟩]⟩

set_option maxRecDepth 10000 in
/-- Witness for the amended C2 on a concrete one-segment walk. -/
theorem C2_walk_chord_witness :
    sqDist ⟨1/2, 1, 1/2⟩ ((⟨2 + 3 / 10 ^ 12, 1, 1/2⟩ : Vec3) - snapC2w.eps • (⟨1, 0, 0⟩ : Vec3)) =
      (segSum [(0, 3/2)] +
        (((List.length [((0 : ℕ), (3 : ℚ)/2)] : ℚ)) + ((0 : ℕ) : ℚ) - 1) * snapC2w.eps) ^ 2 :=
  C2_walk_chord snapC2w ⟨1, 0, 0⟩ (by decide) 5 0 ⟨1/2, 1, 1/2⟩
    [(0, 3/2)] 0 ⟨2 + 3 / 10 ^ 12, 1, 1/2⟩ (by decide)

/-- Twelve unit-slab Voronoi cells along `x` in the box
`[0,12]×[0,3]×[0,4]` (diagonal 13, so `ε = 13·10⁻¹²`). -/
def snapC2 : Snapshot :=
  ⟨⟨0, 12, 0, 3, 0, 4⟩, 13 / 10 ^ 12,
   [⟨⟨1/2, 3/2, 2⟩, ⟨0, 0, 0⟩, ⟨1, 3, 4⟩, [1, -1, -3, -4, -5, -6]⟩,
    ⟨⟨3/2, 3/2, 2⟩, ⟨1, 0, 0⟩, ⟨2, 3, 4⟩, [0, 2, -3, -4, -5, -6]⟩,
    ⟨⟨5/2, 3/2, 2⟩, ⟨2, 0, 0⟩, ⟨3, 3, 4⟩, [1, 3, -3, -4, -5, -6]⟩,
    ⟨⟨7/2, 3/2, 2⟩, ⟨3, 0, 0⟩, ⟨4, 3, 4⟩, [2, 4, -3, -4, -5, -6]⟩,
    ⟨⟨9/2, 3/2, 2⟩, ⟨4, 0, 0⟩, ⟨5, 3, 4⟩, [3, 5, -3, -4, -5, -6]⟩,
    ⟨⟨11/2, 3/2, 2⟩, ⟨5, 0, 0⟩, ⟨6, 3, 4⟩, [4, 6, -3, -4, -5, -6]⟩,
    ⟨⟨13/2, 3/2, 2⟩, ⟨6, 0, 0⟩, ⟨7, 3, 4⟩, [5, 7, -3, -4, -5, -6]⟩,
    ⟨⟨15/2, 3/2, 2⟩, ⟨7, 0, 0⟩, ⟨8, 3, 4⟩, [6, 8, -3, -4, -5, -6]⟩,
    ⟨⟨17/2, 3/2, 2⟩, ⟨8, 0, 0⟩, ⟨9, 3, 4⟩, [7, 9, -3, -4, -5, -6]⟩,
    ⟨⟨19/2, 3/2, 2⟩, ⟨9, 0, 0⟩, ⟨10, 3, 4⟩, [8, 10, -3, -4, -5, -6]⟩,
    ⟨⟨21/2, 3/2, 2⟩, ⟨10, 0, 0⟩, ⟨11, 3, 4⟩, [9, 11, -3, -4, -5, -6]⟩,
    ⟨⟨23/2, 3/2, 2⟩, ⟨11, 0, 0⟩, ⟨12, 3, 4⟩, [10, -2, -3, -4, -5, -6]⟩]⟩

set_option maxRecDepth 40000 in
/-- C2 as frozen is false: the ray from `(0, 3/2, 2)` along `+x` through
`snapC2` enters at `x = 0` and exits at `x = 12` (chord length 12), the
walk emits the exhaustive ordered list of the twelve traversed cells, yet
the emitted lengths sum to `12 - 11·ε`, which differs from the chord by
`11·ε > 10·ε`. -/
theorem C2_counterexample :
    ((pathWalk snapC2 ⟨0, 3/2, 2⟩ ⟨1, 0, 0⟩ 20).map (fun out => out.1.map Prod.fst) =
      some [0, 1, 2, 3, 4, 5, 6, 7, 8, 9, 10, 11]) ∧
    ((pathWalk snapC2 ⟨0, 3/2, 2⟩ ⟨1, 0, 0⟩ 20).map (fun out => segSum out.1) =
      some (12 - 11 * snapC2.eps)) ∧
    ((pathWalk snapC2 ⟨0, 3/2, 2⟩ ⟨1, 0, 0⟩ 20).map (fun out => out.2.2) =
      some ⟨12 + 13 / 10 ^ 12, 3/2, 2⟩) ∧
    10 * snapC2.eps < |(12 : ℚ) - (12 - 11 * snapC2.eps)| := by
  decide

/-- `Parallel::call`: `_numChunks` before the remainder correction —
`maxIndex` when `useChunksOfSizeOne`, else `threadCount * 8`. -/
def numChunksInit (threadCount N : ℕ) (useChunksOfSizeOne : Bool) : ℕ :=
  if useChunksOfSizeOne then N else threadCount * 8

/-- `_chunkSize = _maxIndex / _numChunks` (`size_t` division; for
`maxIndex = 0` with `chunksOfOne` the source divides zero by zero, which
is undefined behaviour in C++ and `0` in ℕ). -/
def chunkSize (threadCount N : ℕ) (one : Bool) : ℕ :=
  N / numChunksInit threadCount N one

/-- `if (_numChunks * _chunkSize < _maxIndex) _numChunks++` from
`Parallel::call`. -/
def numChunks (threadCount N : ℕ) (one : Bool) : ℕ :=
  if numChunksInit threadCount N one * chunkSize threadCount N one < N then
    numChunksInit threadCount N one + 1
  else
    numChunksInit threadCount N one

/-- The chunks dispensed by `Parallel::doWork` across all threads: chunk
index `idx = 0 .. numChunks-1` invokes
`target(idx*chunkSize, min(chunkSize, maxIndex - idx*chunkSize))`.
ℕ subtraction agrees with the source's `size_t` arithmetic on every
dispensed index, because `idx*chunkSize ≤ maxIndex` throughout the
dispensed range. -/
def chunkList (threadCount N : ℕ) (one : Bool) : List (ℕ × ℕ) :=
  (List.range (numChunks threadCount N one)).map
    (fun idx => (idx * chunkSize threadCount N one,
                 min (chunkSize threadCount N one) (N - idx * chunkSize threadCount N one)))

/-- Total number of indices processed across all dispensed chunks. -/
def coveredCount (threadCount N : ℕ) (one : Bool) : ℕ :=
  ((chunkList threadCount N one).map Prod.snd).sum

/-- Whether some dispensed chunk covers index `i`. -/
def coversIndex (threadCount N : ℕ) (one : Bool) (i : ℕ) : Bool :=
  (chunkList threadCount N one).any (fun c => decide (c.1 ≤ i ∧ i < c.1 + c.2))

/-- C3: the chunk bookkeeping of `Parallel::call` does **not** dispense a
partition of `[0, maxIndex)` for every input.  At `maxIndex = 15`,
`threadCount = 1`, `chunksOfOne = false` the code computes
`chunkSize = 15/8 = 1` and bumps `numChunks` to 9, so the dispensed chunks
cover only `[0, 9)`: the counts sum to 9 ≠ 15 and index 9 is never
handed to the body.  (The spec's `chunkSize = ceil(N/numChunks)` — i.e.
incrementing `_chunkSize` instead of `_numChunks` — would cover `[0, 15)`
exactly.) -/
theorem C3_chunks_not_partition :
    chunkSize 1 15 false = 1 ∧ numChunks 1 15 false = 9 ∧
    coveredCount 1 15 false = 9 ∧ (9 : ℕ) ≠ 15 ∧
    coversIndex 1 15 false 9 = false := by decide

/-- C6 as frozen is false: with `maxIndex = 0`, `threadCount = 1` and
`chunksOfOne = false`, the dispenser hands out 8 chunks, i.e. the body
*is* invoked (8 times, with count 0). -/
theorem C6_counterexample :
    (chunkList 1 0 false).length = 8 ∧ (8 : ℕ) ≠ 0 := by decide

/-- The chunk setup of `Parallel::call` with the division made fallible:
`_chunkSize = _maxIndex / _numChunks` divides by zero — undefined
behaviour in C++ — exactly when the initial `_numChunks` is zero, i.e.
when `useChunksOfSizeOne` with `maxIndex = 0`, or `threadCount = 0`.
On the defined path it returns `(_numChunks, _chunkSize)` after the
remainder correction. -/
def chunkSetup (threadCount N : ℕ) (one : Bool) : Option (ℕ × ℕ) :=
  if numChunksInit threadCount N one = 0 then none
  else some (numChunks threadCount N one, chunkSize threadCount N one)

/-- C6 (amended): `call(body, 0)` processes no index, but not for the
claimed reason.  With `chunksOfOne` the source divides zero by zero when
computing `_chunkSize` (`_numChunks = _maxIndex = 0`) — undefined
behaviour, so no definite claim about invocation can be made (`none`).
Without `chunksOfOne`, `8·threadCount` chunks are dispensed, every one
with count 0: the body *is* invoked, but no index is ever processed. -/
theorem C6_zero_maxIndex (threadCount : ℕ) (h : 0 < threadCount) :
    chunkSetup threadCount 0 true = none ∧
    chunkSetup threadCount 0 false = some (8 * threadCount, 0) ∧
    (∀ c ∈ chunkList threadCount 0 false, c.2 = 0) ∧
    coveredCount threadCount 0 false = 0 ∧
    (chunkList threadCount 0 false).length = 8 * threadCount := by
  have hcs : chunkSize threadCount 0 false = 0 := by simp [chunkSize]
  refine ⟨?_, ?_, ?_, ?_, ?_⟩
  · simp [chunkSetup, numChunksInit]
  · have hne : ¬ numChunksInit threadCount 0 false = 0 := by
      unfold numChunksInit
      simp only [Bool.false_eq_true, if_false]
      omega
    simp only [chunkSetup]
    rw [if_neg hne]
    simp [numChunks, numChunksInit, chunkSize, Nat.mul_comm]
  · intro c hc
    simp only [chunkList, List.mem_map] at hc
    obtain ⟨idx, _, hidx⟩ := hc
    rw [← hidx]
    simp [hcs]
  · simp only [coveredCount, chunkList, List.map_map]
    rw [List.sum_eq_zero]
    intro x hx
    simp only [List.mem_map, Function.comp] at hx
    obtain ⟨idx, _, hidx⟩ := hx
    rw [← hidx]
    simp [hcs]
  · simp only [chunkList, List.length_map, List.length_range]
    simp [numChunks, numChunksInit, chunkSize]
    omega

theorem C6_zero_maxIndex_witness :
    chunkSetup 1 0 true = none ∧
    chunkSetup 1 0 false = some (8 * 1, 0) ∧
    (∀ c ∈ chunkList 1 0 false, c.2 = 0) ∧
    coveredCount 1 0 false = 0 ∧
    (chunkList 1 0 false).length = 8 * 1 :=
  C6_zero_maxIndex 1 (by decide)

def siteAt (sites : List Vec3) (m : ℕ) : Vec3 := sites.getD m ⟨0, 0, 0⟩

/-- The comparator of the index sort in `buildMesh`
(`sites[m1].x() < sites[m2].x()`), as the induced total preorder. -/
def xLe (sites : List Vec3) (m1 m2 : ℕ) : Prop :=
  ¬((siteAt sites m2).x < (siteAt sites m1).x)

instance (sites : List Vec3) : DecidableRel (xLe sites) := fun _ _ =>
  inferInstanceAs (Decidable (¬_ < _))

instance (sites : List Vec3) : IsTotal ℕ (xLe sites) :=
  ⟨fun a b => by unfold xLe; by_cases h : (siteAt sites b).x < (siteAt sites a).x
                 · right; intro h2; exact absurd h (not_lt.mpr (le_of_lt h2))
                 · left; exact h⟩

instance (sites : List Vec3) : IsTrans ℕ (xLe sites) :=
  ⟨fun a b c h1 h2 => by unfold xLe at *; intro h; apply h1; by_contra h3; apply h2; push_neg at h3; linarith⟩

/-- The x-sorted list of site indices built at the start of `buildMesh`
(`std::sort` on `iota` indices; full sorting models it). -/
def sortIndicesByX (sites : List Vec3) : List ℕ :=
  List.insertionSort (xLe sites) (List.range sites.length)

/-- Whether the sweep of `buildMesh` keeps the site at position `i` of the
x-sorted order: it must lie inside the domain, and no later site within
`ε` on `x` (the sweep window) may lie within `ε` of it in full 3-D.
Tagging cannot affect later reads, because the source only tags positions
at or before the one being processed while the window looks strictly
ahead. -/
def keptAt (box : Box3) (eps : ℚ) (sites : List Vec3) (sorted : List ℕ) (i : ℕ) : Bool :=
  decide (box.contains (siteAt sites (sorted.getD i 0))) &&
    ((sorted.drop (i + 1)).takeWhile
        (fun j => decide ((siteAt sites j).x - (siteAt sites (sorted.getD i 0)).x < eps))).all
      (fun j => !decide (sqDist (siteAt sites j) (siteAt sites (sorted.getD i 0)) < eps * eps))

/-- The site indices retained by the filtering sweep of `buildMesh`
(`ignoreNearbyAndOutliers` set), in sweep order; the surviving sites are
the ones for which Voronoi cells are then built. -/
def survivors (box : Box3) (eps : ℚ) (sites : List Vec3) : List ℕ :=
  ((List.range (sortIndicesByX sites).length).filter
      (fun i => keptAt box eps sites (sortIndicesByX sites) i)).map
    (fun i => (sortIndicesByX sites).getD i 0)

theorem C7_counterexample :
    survivors ⟨0, 2, 0, 2, 0, 1⟩ (3 / 10 ^ 12)
      [⟨1, 1, 1/2⟩, ⟨1 + 1 / 10 ^ 12, 1, 1/2⟩] = [1] ∧
    ([1] : List ℕ) ≠ [0] := by decide

theorem sortIndicesByX_length (sites : List Vec3) :
    (sortIndicesByX sites).length = sites.length := by
  simp [sortIndicesByX, List.length_insertionSort]

theorem sortIndicesByX_mem (sites : List Vec3) :
    ∀ j ∈ sortIndicesByX sites, j < sites.length := by
  intro j hj
  have := (List.perm_insertionSort (xLe sites) (List.range sites.length)).mem_iff.mp hj
  exact List.mem_range.mp this

/-- C7 (amended).  When every input site lies in the domain and all sites
are mutually within ε of each other, the sweep retains exactly one site —
the one *last* in the x-sorted sweep order (for each close pair the source
discards the earlier site, the one with smaller x, not the later one). -/
theorem C7_close_group (box : Box3) (eps : ℚ) (sites : List Vec3)
    (hne : sites ≠ []) (heps : 0 < eps)
    (hin : ∀ v ∈ sites, box.contains v)
    (hclose : ∀ v ∈ sites, ∀ w ∈ sites, sqDist v w < eps * eps) :
    survivors box eps sites =
      [(sortIndicesByX sites).getD (sites.length - 1) 0] ∧
    (survivors box eps sites).length = 1 := by
  have hlen : (sortIndicesByX sites).length = sites.length := sortIndicesByX_length sites
  have hn : 0 < sites.length := List.length_pos.mpr hne
  have hmemsite : ∀ j ∈ sortIndicesByX sites, siteAt sites j ∈ sites := by
    intro j hj
    have hjl := sortIndicesByX_mem sites j hj
    rw [show siteAt sites j = sites[j] from List.getD_eq_getElem sites _ hjl]
    exact List.getElem_mem _
  have hsorted := List.sorted_insertionSort (xLe sites) (List.range sites.length)
  have hpair := List.pairwise_iff_getElem.mp hsorted
  -- positions strictly before the last are discarded
  have hdrop : ∀ i : ℕ, i + 1 < (sortIndicesByX sites).length →
      keptAt box eps sites (sortIndicesByX sites) i = false := by
    intro i hi1
    set sorted := sortIndicesByX sites with hsdef
    have hi : i < sorted.length := by omega
    have ha : sorted.getD i 0 = sorted[i] := List.getD_eq_getElem sorted _ hi
    have hb : sorted.drop (i + 1) = sorted[i + 1] :: sorted.drop (i + 2) :=
      List.drop_eq_getElem_cons hi1
    have haS : siteAt sites sorted[i] ∈ sites := hmemsite _ (List.getElem_mem _)
    have hbS : siteAt sites sorted[i + 1] ∈ sites := hmemsite _ (List.getElem_mem _)
    have hxle : xLe sites sorted[i] sorted[i + 1] := hpair i (i + 1) hi hi1 (by omega)
    have hxord : (siteAt sites sorted[i]).x ≤ (siteAt sites sorted[i + 1]).x :=
      le_of_not_lt hxle
    have hd2 : sqDist (siteAt sites sorted[i + 1]) (siteAt sites sorted[i]) < eps * eps :=
      hclose _ hbS _ haS
    have hxgap : (siteAt sites sorted[i + 1]).x - (siteAt sites sorted[i]).x < eps := by
      have hco := sq_coord_le_sqDist (siteAt sites sorted[i + 1]) (siteAt sites sorted[i])
        (show (0 : ℕ) < 3 by omega)
      have hco' : ((siteAt sites sorted[i + 1]).x - (siteAt sites sorted[i]).x) ^ 2 <
          eps * eps := lt_of_le_of_lt hco hd2
      nlinarith
    unfold keptAt
    rw [ha, hb]
    have htw : decide ((siteAt sites sorted[i + 1]).x - (siteAt sites sorted[i]).x < eps)
        = true := decide_eq_true hxgap
    have htwl : (sorted[i + 1] :: sorted.drop (i + 2)).takeWhile
        (fun j => decide ((siteAt sites j).x - (siteAt sites sorted[i]).x < eps)) =
        sorted[i + 1] :: (sorted.drop (i + 2)).takeWhile
          (fun j => decide ((siteAt sites j).x - (siteAt sites sorted[i]).x < eps)) := by
      rw [List.takeWhile_cons, htw]
      rfl
    rw [htwl]
    have hall : ((sorted[i + 1] :: (sorted.drop (i + 2)).takeWhile
          (fun j => decide ((siteAt sites j).x - (siteAt sites sorted[i]).x < eps))).all
        (fun j => !decide (sqDist (siteAt sites j) (siteAt sites sorted[i]) < eps * eps))) = false := by
      apply List.all_eq_false.mpr
      refine ⟨sorted[i + 1], List.mem_cons_self _ _, ?_⟩
      simp [hd2]
    rw [hall]
    simp
  -- the last position survives
  have hlast : keptAt box eps sites (sortIndicesByX sites) (sites.length - 1) = true := by
    set sorted := sortIndicesByX sites with hsdef
    have hil : sites.length - 1 < sorted.length := by omega
    have ha : sorted.getD (sites.length - 1) 0 = sorted[sites.length - 1] :=
      List.getD_eq_getElem sorted _ hil
    have hdropnil : sorted.drop (sites.length - 1 + 1) = [] := by
      apply List.drop_eq_nil_of_le
      omega
    unfold keptAt
    rw [ha, hdropnil]
    simp only [List.takeWhile_nil, List.all_nil, Bool.and_true, decide_eq_true_eq]
    exact hin _ (hmemsite _ (List.getElem_mem _))
  -- assemble: the filter keeps exactly the last position
  have hrange : List.range (sortIndicesByX sites).length =
      List.range (sites.length - 1) ++ [sites.length - 1] := by
    rw [hlen]
    have : sites.length = (sites.length - 1) + 1 := by omega
    rw [this, List.range_succ]
    congr 1
  have hfilter : (List.range (sortIndicesByX sites).length).filter
      (fun i => keptAt box eps sites (sortIndicesByX sites) i) = [sites.length - 1] := by
    rw [hrange, List.filter_append]
    have h1 : (List.range (sites.length - 1)).filter
        (fun i => keptAt box eps sites (sortIndicesByX sites) i) = [] := by
      apply List.filter_eq_nil_iff.mpr
      intro i hi
      have : i < sites.length - 1 := List.mem_range.mp hi
      simp only [Bool.not_eq_true]
      exact hdrop i (by omega)
    have h2 : ([sites.length - 1] : List ℕ).filter
        (fun i => keptAt box eps sites (sortIndicesByX sites) i) = [sites.length - 1] := by
      simp [List.filter, hlast]
    rw [h1, h2, List.nil_append]
  constructor
  · unfold survivors
    rw [hfilter]
    simp
  · unfold survivors
    rw [hfilter]
    simp

theorem C7_close_group_witness :
    survivors ⟨0, 2, 0, 2, 0, 1⟩ (3 / 10 ^ 12)
        [⟨1, 1, 1/2⟩, ⟨1, 1, 1/2⟩, ⟨1, 1, 1/2⟩] =
      [(sortIndicesByX [⟨1, 1, 1/2⟩, ⟨1, 1, 1/2⟩, ⟨1, 1, 1/2⟩]).getD
        (([⟨1, 1, 1/2⟩, ⟨1, 1, 1/2⟩, ⟨1, 1, 1/2⟩] : List Vec3).length - 1) 0] ∧
    (survivors ⟨0, 2, 0, 2, 0, 1⟩ (3 / 10 ^ 12)
        [⟨1, 1, 1/2⟩, ⟨1, 1, 1/2⟩, ⟨1, 1, 1/2⟩]).length = 1 :=
  C7_close_group ⟨0, 2, 0, 2, 0, 1⟩ (3 / 10 ^ 12)
    [⟨1, 1, 1/2⟩, ⟨1, 1, 1/2⟩, ⟨1, 1, 1/2⟩]
    (by decide) (by decide) (by decide) (by decide)

/-- The detector-array indices of the anonymous enum in `FluxRecorder`:
`Total=0, Transparent, PrimaryDirect, PrimaryScattered, SecondaryDirect,
SecondaryScattered, TotalQ, TotalU, TotalV, PrimaryScatteredLevel`. -/
def chTotal : ℕ := 0

def chTransparent : ℕ := 1

def chPrimaryDirect : ℕ := 2

def chPrimaryScattered : ℕ := 3

def chSecondaryDirect : ℕ := 4

def chSecondaryScattered : ℕ := 5

def chTotalQ : ℕ := 6

def chTotalU : ℕ := 7

def chTotalV : ℕ := 8

def chPrimaryScatteredLevel : ℕ := 9

/-- The configuration of a `FluxRecorder` as set through
`setSimulationInfo`, `setUserFlags`, `includeFluxDensity` and
`includeSurfaceBrightness` (geometry parameters that only matter for
calibration are omitted). -/
structure RecConfig where
  recordComponents : Bool
  numScatteringLevels : ℕ
  recordPolarization : Bool
  recordStatistics : Bool
  hasMedium : Bool
  hasMediumEmission : Bool
  includeFluxDensity : Bool
  includeSurfaceBrightness : Bool
  numWavelengths : ℕ
  numPixelsX : ℕ
  numPixelsY : ℕ
deriving DecidableEq, Repr

/-- `_recordTotalOnly = !recordComponents || !hasMedium` from
`finalizeConfiguration`. -/
def recordTotalOnly (cfg : RecConfig) : Bool := !cfg.recordComponents || !cfg.hasMedium

def numPixelsInFrame (cfg : RecConfig) : ℕ := cfg.numPixelsX * cfg.numPixelsY

def lenSED (cfg : RecConfig) : ℕ :=
  if cfg.includeFluxDensity then cfg.numWavelengths else 0

def lenIFU (cfg : RecConfig) : ℕ :=
  if cfg.includeSurfaceBrightness then numPixelsInFrame cfg * cfg.numWavelengths else 0

/-- The array lengths produced by `finalizeConfiguration` for one detector
family (`_sed` with `lenSED`, `_ifu` with `lenIFU`): the vector holds
`PrimaryScatteredLevel + numScatteringLevels` arrays, all empty except the
ones the configuration resizes. -/
def channelSizes (cfg : RecConfig) (len : ℕ) : List ℕ :=
  let a0 := List.replicate (chPrimaryScatteredLevel + cfg.numScatteringLevels) 0
  let a1 :=
    if recordTotalOnly cfg then a0.set chTotal len
    else
      let a2 := ((a0.set chTransparent len).set chPrimaryDirect len).set chPrimaryScattered len
      let a3 := (List.range cfg.numScatteringLevels).foldl
        (fun a i => a.set (chPrimaryScatteredLevel + i) len) a2
      if cfg.hasMediumEmission then (a3.set chSecondaryDirect len).set chSecondaryScattered len
      else a3
  if cfg.recordPolarization then ((a1.set chTotalQ len).set chTotalU len).set chTotalV len
  else a1

/-- A channel is allocated (non-empty) when its array was resized to a
positive length. -/
def allocated (cfg : RecConfig) (len c : ℕ) : Prop :=
  (channelSizes cfg len).getD c 0 ≠ 0

/-- The allocation rule as the frozen claim C4 words it: only `Total` when
`recordTotalOnly`, otherwise the five component channels, plus Stokes
exactly when `recordPolarization`, plus the `S` per-scatter-level
channels. -/
def claimC4Allocated (cfg : RecConfig) (c : ℕ) : Prop :=
  if recordTotalOnly cfg = true then c = chTotal
  else (c = chTransparent ∨ c = chPrimaryDirect ∨ c = chPrimaryScattered ∨
        c = chSecondaryDirect ∨ c = chSecondaryScattered) ∨
       (cfg.recordPolarization = true ∧ (c = chTotalQ ∨ c = chTotalU ∨ c = chTotalV)) ∨
       (chPrimaryScatteredLevel ≤ c ∧ c < chPrimaryScatteredLevel + cfg.numScatteringLevels)

/-- The allocation rule the code implements: Stokes channels are resized
whenever `recordPolarization` is set (also in the total-only case), and
the secondary channels only when the medium emits. -/
def codeAllocated (cfg : RecConfig) (c : ℕ) : Prop :=
  (if recordTotalOnly cfg = true then c = chTotal
   else (c = chTransparent ∨ c = chPrimaryDirect ∨ c = chPrimaryScattered) ∨
        (cfg.hasMediumEmission = true ∧ (c = chSecondaryDirect ∨ c = chSecondaryScattered)) ∨
        (chPrimaryScatteredLevel ≤ c ∧ c < chPrimaryScatteredLevel + cfg.numScatteringLevels)) ∨
  (cfg.recordPolarization = true ∧ (c = chTotalQ ∨ c = chTotalU ∨ c = chTotalV))

theorem getD_set_eq (l : List ℕ) (i v : ℕ) (h : i < l.length) :
    (l.set i v).getD i 0 = v := by
  rw [List.getD_eq_getElem (l.set i v) 0 (by simp [h])]
  exact List.getElem_set_self _

theorem getD_set_ne (l : List ℕ) (i j v : ℕ) (h : i ≠ j) :
    (l.set i v).getD j 0 = l.getD j 0 := by
  simp [List.getD_eq_getD_get?, List.getElem?_set_ne h]

theorem getD_replicate_zero (n c : ℕ) : (List.replicate n (0 : ℕ)).getD c 0 = 0 := by
  simp [List.getD_eq_getD_get?]

theorem foldl_set_length (len S : ℕ) (a : List ℕ) :
    ((List.range S).foldl (fun a i => a.set (chPrimaryScatteredLevel + i) len) a).length =
      a.length := by
  induction S generalizing a with
  | zero => rfl
  | succ S ih =>
    rw [List.range_succ, List.foldl_append]
    simp [ih]

theorem getD_foldl_set (len : ℕ) (S : ℕ) (a : List ℕ) (c : ℕ) :
    ((List.range S).foldl (fun a i => a.set (chPrimaryScatteredLevel + i) len) a).getD c 0 =
      if chPrimaryScatteredLevel ≤ c ∧ c < chPrimaryScatteredLevel + S ∧ c < a.length then len
      else a.getD c 0 := by
  induction S generalizing a with
  | zero =>
    simp only [List.range_zero, List.foldl_nil]
    have : ¬(chPrimaryScatteredLevel ≤ c ∧ c < chPrimaryScatteredLevel + 0 ∧ c < a.length) := by
      unfold chPrimaryScatteredLevel; omega
    rw [if_neg this]
  | succ S ih =>
    rw [List.range_succ, List.foldl_append, List.foldl_cons, List.foldl_nil]
    by_cases hc : c = chPrimaryScatteredLevel + S
    · subst hc
      by_cases hlen : chPrimaryScatteredLevel + S <
          ((List.range S).foldl (fun a i => a.set (chPrimaryScatteredLevel + i) len) a).length
      · rw [getD_set_eq _ _ _ hlen]
        rw [foldl_set_length] at hlen
        rw [if_pos (by unfold chPrimaryScatteredLevel at *; omega)]
      · rw [foldl_set_length] at hlen
        rw [List.getD_eq_default _ _ (by
          rw [List.length_set, foldl_set_length]; omega)]
        rw [if_neg (by omega)]
        rw [List.getD_eq_default _ _ (by omega)]
    · rw [getD_set_ne _ _ _ _ (fun h => hc h.symm), ih]
      by_cases h1 : chPrimaryScatteredLevel ≤ c ∧ c < chPrimaryScatteredLevel + S ∧ c < a.length
      · rw [if_pos h1, if_pos (by omega)]
      · rw [if_neg h1, if_neg (by
          intro h2
          exact h1 ⟨h2.1, by omega, h2.2.2⟩)]

theorem getD_foldl_sets (len : ℕ) (idxs : List ℕ) :
    ∀ (base : List ℕ) (c : ℕ),
      ((idxs.foldl (fun a i => a.set i len) base).getD c 0) =
        if c ∈ idxs ∧ c < base.length then len else base.getD c 0 := by
  induction idxs with
  | nil => intro base c; simp
  | cons i rest ih =>
    intro base c
    rw [List.foldl_cons, ih]
    by_cases hmem : c ∈ rest ∧ c < (base.set i len).length
    · rw [if_pos hmem, if_pos ⟨List.mem_cons_of_mem _ hmem.1, by
        have := hmem.2; simpa using this⟩]
    · rw [if_neg hmem]
      by_cases hci : c = i
      · subst hci
        by_cases hlt : c < base.length
        · rw [getD_set_eq _ _ _ hlt, if_pos ⟨List.mem_cons_self _ _, hlt⟩]
        · rw [if_neg (fun h => hlt h.2)]
          rw [List.getD_eq_default _ _ (by simp; omega)]
          rw [List.getD_eq_default _ _ (by omega)]
      · rw [getD_set_ne _ _ _ _ (fun h => hci h.symm)]
        rw [if_neg (by
          intro h
          rcases List.mem_cons.mp h.1 with h1 | h1
          · exact hci h1
          · exact hmem ⟨h1, by simpa using h.2⟩)]

/-- The list of channel indices that `finalizeConfiguration` resizes for a
detector family. -/
def channelIdxs (cfg : RecConfig) : List ℕ :=
  (if recordTotalOnly cfg then [chTotal]
   else [chTransparent, chPrimaryDirect, chPrimaryScattered] ++
        (List.range cfg.numScatteringLevels).map (fun i => chPrimaryScatteredLevel + i) ++
        (if cfg.hasMediumEmission then [chSecondaryDirect, chSecondaryScattered] else [])) ++
  (if cfg.recordPolarization then [chTotalQ, chTotalU, chTotalV] else [])

theorem channelSizes_eq_foldl (cfg : RecConfig) (len : ℕ) :
    channelSizes cfg len =
      (channelIdxs cfg).foldl (fun a i => a.set i len)
        (List.replicate (chPrimaryScatteredLevel + cfg.numScatteringLevels) 0) := by
  unfold channelSizes channelIdxs
  by_cases hto : recordTotalOnly cfg <;>
    by_cases hem : cfg.hasMediumEmission <;>
      by_cases hpol : cfg.recordPolarization <;>
        simp [hto, hem, hpol, List.foldl_append, List.foldl_map]

theorem mem_channelIdxs_lt (cfg : RecConfig) (c : ℕ) (h : c ∈ channelIdxs cfg) :
    c < chPrimaryScatteredLevel + cfg.numScatteringLevels := by
  unfold channelIdxs at h
  unfold chTotal chTransparent chPrimaryDirect chPrimaryScattered chSecondaryDirect
    chSecondaryScattered chTotalQ chTotalU chTotalV chPrimaryScatteredLevel at *
  rcases List.mem_append.mp h with h | h
  · by_cases hto : recordTotalOnly cfg
    · rw [if_pos hto] at h; simp at h; omega
    · rw [if_neg hto] at h
      rcases List.mem_append.mp h with h | h
      · rcases List.mem_append.mp h with h | h
        · simp at h; omega
        · simp only [List.mem_map, List.mem_range] at h
          obtain ⟨i, hi, rfl⟩ := h
          omega
      · by_cases hem : cfg.hasMediumEmission
        · rw [if_pos hem] at h; simp at h; omega
        · rw [if_neg hem] at h; simp at h
  · by_cases hpol : cfg.recordPolarization
    · rw [if_pos hpol] at h; simp at h; omega
    · rw [if_neg hpol] at h; simp at h

theorem mem_channelIdxs_iff (cfg : RecConfig) (c : ℕ) :
    c ∈ channelIdxs cfg ↔ codeAllocated cfg c := by
  have hex : (∃ i, i < cfg.numScatteringLevels ∧ chPrimaryScatteredLevel + i = c) ↔
      (chPrimaryScatteredLevel ≤ c ∧ c < chPrimaryScatteredLevel + cfg.numScatteringLevels) := by
    constructor
    · rintro ⟨i, hi, rfl⟩
      unfold chPrimaryScatteredLevel
      omega
    · intro h
      unfold chPrimaryScatteredLevel at h
      exact ⟨c - chPrimaryScatteredLevel, by unfold chPrimaryScatteredLevel; omega,
        by unfold chPrimaryScatteredLevel; omega⟩
  unfold channelIdxs codeAllocated
  by_cases hto : recordTotalOnly cfg <;>
    by_cases hem : cfg.hasMediumEmission <;>
      by_cases hpol : cfg.recordPolarization <;>
        simp only [hto, hem, hpol, if_true, if_false, Bool.true_eq_false, Bool.false_eq_true,
          if_pos, List.mem_append, List.mem_singleton, List.mem_cons, List.mem_map,
          List.mem_range, List.not_mem_nil, or_false, false_or, true_and, false_and,
          and_false, and_true, hex, ite_true, ite_false] <;>
        tauto

instance (cfg : RecConfig) (c : ℕ) : Decidable (codeAllocated cfg c) := by
  unfold codeAllocated
  infer_instance

theorem channelSizes_getD (cfg : RecConfig) (len c : ℕ) :
    (channelSizes cfg len).getD c 0 = if codeAllocated cfg c then len else 0 := by
  rw [channelSizes_eq_foldl, getD_foldl_sets]
  by_cases h : codeAllocated cfg c
  · rw [if_pos h, if_pos ⟨(mem_channelIdxs_iff cfg c).mpr h, by
      rw [List.length_replicate]
      exact mem_channelIdxs_lt cfg c ((mem_channelIdxs_iff cfg c).mpr h)⟩]
  · rw [if_neg h, if_neg (by
      intro hc
      exact h ((mem_channelIdxs_iff cfg c).mp hc.1))]
    exact getD_replicate_zero _ _

/-- C4 (amended).  After `finalizeConfiguration`, with a positive array
length, a detector channel is allocated (non-empty) iff: in the
total-only case it is `Total`; otherwise it is one of `Transparent`,
`PrimaryDirect`, `PrimaryScattered`, one of the two secondary channels
**exactly when the medium emits**, or one of the `S` scatter-level
channels; and — in *both* cases — one of the Stokes channels exactly when
`recordPolarization` is set. -/
theorem C4_allocated_channels (cfg : RecConfig) (len c : ℕ) (hlen : 0 < len) :
    allocated cfg len c ↔ codeAllocated cfg c := by
  unfold allocated
  rw [channelSizes_getD]
  by_cases h : codeAllocated cfg c
  · rw [if_pos h]; exact iff_of_true (by omega) h
  · rw [if_neg h]; exact iff_of_false (by omega) h

instance (cfg : RecConfig) (c : ℕ) : Decidable (claimC4Allocated cfg c) := by
  unfold claimC4Allocated
  infer_instance

instance (cfg : RecConfig) (len c : ℕ) : Decidable (allocated cfg len c) := by
  unfold allocated
  infer_instance

/-- A configuration with `recordComponents`, a medium that does not emit,
no polarization, no scatter levels, SED output with one wavelength. -/
def cfgC4 : RecConfig := ⟨true, 0, false, false, true, false, true, false, 1, 0, 0⟩

/-- C4 as frozen is false: for `cfgC4` the claim formula allocates
`SecondaryDirect`, but `finalizeConfiguration` resizes the secondary
channels only when the medium emits, so the channel stays empty. -/
theorem C4_counterexample :
    claimC4Allocated cfgC4 chSecondaryDirect ∧
    ¬allocated cfgC4 (lenSED cfgC4) chSecondaryDirect := by decide

/-- Witness for the amended C4 at a concrete configuration and channel. -/
theorem C4_allocated_channels_witness :
    allocated cfgC4 1 chPrimaryScattered ↔ codeAllocated cfgC4 chPrimaryScattered :=
  C4_allocated_channels cfgC4 1 chPrimaryScattered (by decide)

/-- The slice of a `PhotonPacket` that `FluxRecorder::detect` reads.  The
wavelength bin `ell` stands for `_lambdagrid->ell(pp->lambda())` (the
wavelength grid is an external collaborator; its `int` result is carried
directly).  -/
structure Packet where
  ell : ℤ
  numScatt : ℕ
  luminosity : ℚ
  primaryOrigin : Bool
  stokesQ : ℚ
  stokesU : ℚ
  stokesV : ℚ
  historyIndex : ℕ
deriving DecidableEq, Repr

/-- A queued statistics contribution `(ell, l, w)`. -/
structure Contribution where
  ell : ℤ
  l : ℤ
  w : ℚ
deriving DecidableEq, Repr

/-- `Contribution::operator<` is `tie(ell,l) < tie(ell,l)`; this is the
induced total preorder used to model `std::sort`. -/
def contribLE (c1 c2 : Contribution) : Prop :=
  c1.ell < c2.ell ∨ (c1.ell = c2.ell ∧ c1.l ≤ c2.l)

instance : DecidableRel contribLE := fun _ _ => by unfold contribLE; infer_instance

instance : IsTotal Contribution contribLE :=
  ⟨fun a b => by unfold contribLE; omega⟩

instance : IsTrans Contribution contribLE :=
  ⟨fun a b c h1 h2 => by unfold contribLE at *; omega⟩

/-- `FluxRecorder_Impl::ContributionList`: the history index plus the
queued contributions of one thread. -/
structure CList where
  historyIndex : ℕ
  contributions : List Contribution
deriving DecidableEq, Repr

def emptyCL : CList := ⟨0, []⟩

/-- The mutable arrays of a `FluxRecorder`: the `_sed` and `_ifu` channel
vectors, the four statistics moment arrays `_wsed` and `_wifu`, and the
per-thread contribution lists (`_contributionLists`, one entry per
thread). -/
structure RecState where
  sed : List (List ℚ)
  ifu : List (List ℚ)
  wsed : List (List ℚ)
  wifu : List (List ℚ)
  clists : List CList
deriving DecidableEq, Repr

/-- `LockFree::add(array[i], v)` with an explicit bounds check: the C++
write is out of bounds (undefined behaviour) exactly when this returns
`none`; in particular a negative index (wrapped to a huge `size_t` by the
source) is rejected. -/
def addAt (a : List ℚ) (i : ℤ) (v : ℚ) : Option (List ℚ) :=
  if 0 ≤ i ∧ i.toNat < a.length then some (a.set i.toNat (a.getD i.toNat 0 + v))
  else none

/-- Add `v` into channel `c` of a detector family at bin `i`. -/
def addCh (arrs : List (List ℚ)) (c : ℕ) (i : ℤ) (v : ℚ) : Option (List (List ℚ)) :=
  if c < arrs.length then (addAt (arrs.getD c []) i v).map (fun a => arrs.set c a)
  else none

/-- The three polarization writes of `detect` (`TotalQ`, `TotalU`,
`TotalV`), executed when `_recordPolarization` is set. -/
def polAdds (cfg : RecConfig) (arrs : List (List ℚ)) (i : ℤ) (Lext : ℚ)
    (pkt : Packet) : Option (List (List ℚ)) :=
  if cfg.recordPolarization then
    (addCh arrs chTotalQ i (Lext * pkt.stokesQ)).bind (fun a =>
      (addCh a chTotalU i (Lext * pkt.stokesU)).bind (fun a =>
        addCh a chTotalV i (Lext * pkt.stokesV)))
  else some arrs

/-- The branch structure shared by the SED and IFU parts of `detect`:
total-only, else primary (unscattered / scattered with optional
scatter-level), else secondary. -/
def detectFamily (cfg : RecConfig) (arrs : List (List ℚ)) (pkt : Packet)
    (i : ℤ) (etau : ℚ) : Option (List (List ℚ)) :=
  let L := pkt.luminosity
  let Lext := L * etau
  (if recordTotalOnly cfg then addCh arrs chTotal i L
   else
     if pkt.primaryOrigin then
       if pkt.numScatt = 0 then
         (addCh arrs chTransparent i L).bind (fun a => addCh a chPrimaryDirect i Lext)
       else
         (addCh arrs chPrimaryScattered i Lext).bind (fun a =>
           if pkt.numScatt ≤ cfg.numScatteringLevels then
             addCh a (chPrimaryScatteredLevel + pkt.numScatt - 1) i Lext
           else some a)
     else
       if pkt.numScatt = 0 then addCh arrs chSecondaryDirect i Lext
       else addCh arrs chSecondaryScattered i Lext).bind
    (fun a => polAdds cfg a i Lext pkt)

/-- The SED branch of `detect` (`if (_includeFluxDensity)`), indexed at
`ell`. -/
def detectSED (cfg : RecConfig) (sed : List (List ℚ)) (pkt : Packet)
    (etau : ℚ) : Option (List (List ℚ)) :=
  if cfg.includeFluxDensity then detectFamily cfg sed pkt pkt.ell etau
  else some sed

/-- The IFU branch of `detect` (`if (_includeSurfaceBrightness && l>=0)`),
indexed at `lell = l + ell*numPixelsInFrame`. -/
def detectIFU (cfg : RecConfig) (ifu : List (List ℚ)) (pkt : Packet)
    (l : ℤ) (etau : ℚ) : Option (List (List ℚ)) :=
  if cfg.includeSurfaceBrightness = true ∧ 0 ≤ l then
    detectFamily cfg ifu pkt (l + pkt.ell * (numPixelsInFrame cfg : ℤ)) etau
  else some ifu

/-- `ContributionList::sort` via `std::sort` on `operator<`. -/
def sortContribs (cs : List Contribution) : List Contribution :=
  List.insertionSort contribLE cs

/-- The SED grouping pass of `recordContributions`: walk the sorted
contributions accumulating `w`, closing a bin whenever the next
contribution has a different `ell` (or the list ends); emits
`(ell, w_total)` per closed bin. -/
def sedGroups : List Contribution → ℚ → List (ℤ × ℚ)
  | [], _ => []
  | [c], w => [(c.ell, w + c.w)]
  | c :: c2 :: rest, w =>
    if c.ell ≠ c2.ell then (c.ell, w + c.w) :: sedGroups (c2 :: rest) 0
    else sedGroups (c2 :: rest) (w + c.w)

/-- The IFU grouping pass: bins are closed on a change of `ell` *or* `l`;
emits `(ell, l, w_total)`. -/
def ifuGroups : List Contribution → ℚ → List (ℤ × ℤ × ℚ)
  | [], _ => []
  | [c], w => [(c.ell, c.l, w + c.w)]
  | c :: c2 :: rest, w =>
    if c.ell ≠ c2.ell ∨ c.l ≠ c2.l then (c.ell, c.l, w + c.w) :: ifuGroups (c2 :: rest) 0
    else ifuGroups (c2 :: rest) (w + c.w)

/-- For one closed bin, add `w_total^(k+1)` to moment array `k` for
`k = 0..3` (the source's `wn *= w; LockFree::add(_w…[k][bin], wn)`). -/
def addMoments (arrs : List (List ℚ)) (i : ℤ) (w : ℚ) : Option (List (List ℚ)) :=
  (addCh arrs 0 i w).bind (fun a =>
    (addCh a 1 i (w ^ 2)).bind (fun a =>
      (addCh a 2 i (w ^ 3)).bind (fun a =>
        addCh a 3 i (w ^ 4))))

def applySedGroups (wsed : List (List ℚ)) : List (ℤ × ℚ) → Option (List (List ℚ))
  | [] => some wsed
  | g :: rest => (addMoments wsed g.1 g.2).bind (fun a => applySedGroups a rest)

def applyIfuGroups (npix : ℕ) (wifu : List (List ℚ)) :
    List (ℤ × ℤ × ℚ) → Option (List (List ℚ))
  | [] => some wifu
  | g :: rest =>
    (addMoments wifu (g.2.1 + g.1 * (npix : ℤ)) g.2.2).bind
      (fun a => applyIfuGroups npix a rest)

/-- `FluxRecorder::recordContributions`: sort the list, fold the SED
groups into `_wsed` (when SED output is enabled) and the IFU groups into
`_wifu` (when IFU output is enabled).  The IFU bin index
`l + ell*numPixelsInFrame` carries the sign of `l`: a negative value is an
out-of-bounds write (`none`). -/
def recContribs (cfg : RecConfig) (wsed wifu : List (List ℚ)) (cl : CList) :
    Option (List (List ℚ) × List (List ℚ)) :=
  (if cfg.includeFluxDensity then
      applySedGroups wsed (sedGroups (sortContribs cl.contributions) 0)
    else some wsed).bind (fun ws =>
    (if cfg.includeSurfaceBrightness then
        applyIfuGroups (numPixelsInFrame cfg) wifu (ifuGroups (sortContribs cl.contributions) 0)
      else some wifu).map (fun wi => (ws, wi)))

/-- The statistics branch of `detect`: fetch the calling thread's
contribution list; on a new history index first fold the old list and
reset; then append `(ell, l, Lext)` — with no `l ≥ 0` guard. -/
def detectStats (cfg : RecConfig) (wsed wifu : List (List ℚ)) (clists : List CList)
    (t : ℕ) (pkt : Packet) (l : ℤ) (Lext : ℚ) :
    Option (List (List ℚ) × List (List ℚ) × List CList) :=
  if cfg.recordStatistics then
    if t < clists.length then
      let cl := clists.getD t emptyCL
      if cl.historyIndex = pkt.historyIndex then
        some (wsed, wifu,
          clists.set t ⟨cl.historyIndex, cl.contributions ++ [⟨pkt.ell, l, Lext⟩]⟩)
      else
        (recContribs cfg wsed wifu cl).map (fun out =>
          (out.1, out.2, clists.set t ⟨pkt.historyIndex, [⟨pkt.ell, l, Lext⟩]⟩))
    else none
  else some (wsed, wifu, clists)

/-- `FluxRecorder::detect`, for the calling thread `t`.  `etau` stands
for the attenuation factor `exp(-tau)` (transcendental, hence passed as a
value): `Lext = L * etau`. -/
def detect (cfg : RecConfig) (st : RecState) (t : ℕ) (pkt : Packet)
    (l : ℤ) (etau : ℚ) : Option RecState :=
  (detectSED cfg st.sed pkt etau).bind (fun sed' =>
    (detectIFU cfg st.ifu pkt l etau).bind (fun ifu' =>
      (detectStats cfg st.wsed st.wifu st.clists t pkt l (pkt.luminosity * etau)).map
        (fun out => ⟨sed', ifu', out.1, out.2.1, out.2.2⟩)))

/-- The loop of `FluxRecorder::flush`: fold and reset every thread's
contribution list in order. -/
def flushLists (cfg : RecConfig) :
    List CList → List (List ℚ) → List (List ℚ) →
      Option (List CList × List (List ℚ) × List (List ℚ))
  | [], wsed, wifu => some ([], wsed, wifu)
  | cl :: rest, wsed, wifu =>
    (recContribs cfg wsed wifu cl).bind (fun out =>
      (flushLists cfg rest out.1 out.2).map
        (fun res => (emptyCL :: res.1, res.2.1, res.2.2)))

/-- `FluxRecorder::flush`. -/
def flushRec (cfg : RecConfig) (st : RecState) : Option RecState :=
  (flushLists cfg st.clists st.wsed st.wifu).map
    (fun out => ⟨st.sed, st.ifu, out.2.1, out.2.2, out.1⟩)

def cfgC10 : RecConfig := ⟨false, 0, false, true, true, false, false, true, 1, 2, 2⟩

def pktC10 : Packet := ⟨0, 0, 1, true, 0, 0, 0, 7⟩

def stC10 : RecState :=
  ⟨[], [], [],
   [[0, 0, 0, 0], [0, 0, 0, 0], [0, 0, 0, 0], [0, 0, 0, 0]],
   [⟨0, []⟩]⟩

/-- CLAIM C10: with statistics recording and IFU output both enabled, a
`detect` call with pixel index `l = -1` (packet outside the field of
view) still appends the contribution `(ell, l, L_ext)` to the thread's
contribution list, and the subsequent `flush` folds that list indexing
the IFU moment arrays at `l + ell * numPixelsInFrame = -1`: the write is
out of bounds (`none`), so the error branch is reachable. -/
theorem C10_stats_negative_pixel :
    ((detect cfgC10 stC10 0 pktC10 (-1) 1).map
        (fun st => (st.clists.getD 0 emptyCL).contributions)
      = some [⟨0, -1, 1⟩]) ∧
    (detect cfgC10 stC10 0 pktC10 (-1) 1).bind (flushRec cfgC10) = none := by
  decide

/-- Folding an empty contribution list changes nothing. -/
theorem recContribs_empty (cfg : RecConfig) (ws wi : List (List ℚ)) :
    recContribs cfg ws wi emptyCL = some (ws, wi) := by
  unfold recContribs
  have h1 : sortContribs [] = [] := rfl
  cases hf : cfg.includeFluxDensity <;> cases hs : cfg.includeSurfaceBrightness <;>
    simp [emptyCL, h1, sedGroups, ifuGroups, applySedGroups, applyIfuGroups]

/-- Flushing a bank of already-reset contribution lists is the identity. -/
theorem flushLists_replicate (cfg : RecConfig) :
    ∀ (n : ℕ) (ws wi : List (List ℚ)),
      flushLists cfg (List.replicate n emptyCL) ws wi
        = some (List.replicate n emptyCL, ws, wi) := by
  intro n
  induction n with
  | zero => intro ws wi; rfl
  | succ k ih =>
    intro ws wi
    rw [List.replicate_succ]
    unfold flushLists
    rw [recContribs_empty]
    simp [Option.bind, ih ws wi]

/-- A successful flush resets every contribution list. -/
theorem flushLists_clists (cfg : RecConfig) :
    ∀ (cls : List CList) (ws wi : List (List ℚ)) cls' ws' wi',
      flushLists cfg cls ws wi = some (cls', ws', wi') →
        cls' = List.replicate cls.length emptyCL := by
  intro cls
  induction cls with
  | nil =>
    intro ws wi cls' ws' wi' h
    simp [flushLists] at h
    simp [h.1]
  | cons cl rest ih =>
    intro ws wi cls' ws' wi' h
    unfold flushLists at h
    rw [Option.bind_eq_some] at h
    obtain ⟨out, hout, h⟩ := h
    rw [Option.map_eq_some'] at h
    obtain ⟨res, hres, h⟩ := h
    rw [Prod.mk.injEq, Prod.mk.injEq] at h
    obtain ⟨h1, h2, h3⟩ := h
    rw [List.length_cons, List.replicate_succ, ← h1]
    have := ih out.1 out.2 res.1 res.2.1 res.2.2 (by rw [hres])
    rw [this]

/-- CLAIM C9: `flush` is idempotent — after one successful flush (which
folds and resets every thread's contribution list), a second flush
returns the same state: every SED, IFU and moment array is unchanged. -/
theorem C9_flush_idempotent (cfg : RecConfig) (st st' : RecState)
    (h : flushRec cfg st = some st') : flushRec cfg st' = some st' := by
  unfold flushRec at h ⊢
  rw [Option.map_eq_some'] at h
  obtain ⟨out, hout, hst⟩ := h
  have hcl : st'.clists = List.replicate st.clists.length emptyCL := by
    rw [← hst]
    exact flushLists_clists cfg st.clists st.wsed st.wifu out.1 out.2.1 out.2.2
      (by rw [hout])
  have hw : st'.wsed = out.2.1 ∧ st'.wifu = out.2.2 := by rw [← hst]; exact ⟨rfl, rfl⟩
  rw [hcl, hw.1, hw.2, flushLists_replicate]
  simp [Option.map]
  rw [← hw.1, ← hw.2, ← hcl]

def cfgC9 : RecConfig := ⟨false, 0, false, true, true, false, false, true, 1, 2, 2⟩

def stC9 : RecState :=
  ⟨[], [], [],
   [[0, 0, 0, 0], [0, 0, 0, 0], [0, 0, 0, 0], [0, 0, 0, 0]],
   [⟨5, [⟨0, 1, 1⟩]⟩]⟩

def stC9f : RecState :=
  ⟨[], [], [],
   [[0, 1, 0, 0], [0, 1, 0, 0], [0, 1, 0, 0], [0, 1, 0, 0]],
   [emptyCL]⟩

theorem C9_flush_idempotent_witness : flushRec cfgC9 stC9f = some stC9f :=
  C9_flush_idempotent cfgC9 stC9 stC9f (by decide)

/-- `a[i] += v` on a list: the effect of one successful `LockFree::add`. -/
def bump (a : List ℚ) (i : ℤ) (v : ℚ) : List ℚ :=
  a.set i.toNat (a.getD i.toNat 0 + v)

theorem getD_set_self_any {α : Type} (l : List α) (i : ℕ) (v d : α)
    (h : i < l.length) : (l.set i v).getD i d = v := by
  rw [List.getD_eq_getElem (l.set i v) d (by simp [h])]
  exact List.getElem_set_self _

theorem getD_set_other_any {α : Type} (l : List α) (i j : ℕ) (v d : α)
    (h : i ≠ j) : (l.set i v).getD j d = l.getD j d := by
  simp [List.getD_eq_getD_get?, List.getElem?_set_ne h]

/-- A successful `addCh` bumps channel `c` at bin `i` and leaves every
other channel untouched. -/
theorem addCh_props (arrs out : List (List ℚ)) (c : ℕ) (i : ℤ) (v : ℚ)
    (h : addCh arrs c i v = some out) :
    out.getD c [] = bump (arrs.getD c []) i v ∧
      ∀ c' : ℕ, c' ≠ c → out.getD c' [] = arrs.getD c' [] := by
  unfold addCh at h
  split at h
  · rename_i hc
    unfold addAt at h
    split at h
    · simp only [Option.map] at h
      injection h with h
      constructor
      · rw [← h]; exact getD_set_self_any arrs c _ [] hc
      · intro c' hne
        rw [← h]; exact getD_set_other_any arrs c c' _ [] (Ne.symm hne)
    · simp at h
  · simp at h

/-- The polarization writes touch only the `TotalQ/U/V` channels. -/
theorem polAdds_frame (cfg : RecConfig) (a out : List (List ℚ)) (i : ℤ)
    (Lext : ℚ) (pkt : Packet) (h : polAdds cfg a i Lext pkt = some out) :
    ∀ c : ℕ, c ≠ chTotalQ → c ≠ chTotalU → c ≠ chTotalV →
      out.getD c [] = a.getD c [] := by
  unfold polAdds at h
  split at h
  · rw [Option.bind_eq_some] at h
    obtain ⟨a1, h1, h⟩ := h
    rw [Option.bind_eq_some] at h
    obtain ⟨a2, h2, h3⟩ := h
    intro c hq hu hv
    rw [(addCh_props a2 out chTotalV i _ h3).2 c hv,
        (addCh_props a1 a2 chTotalU i _ h2).2 c hu,
        (addCh_props a a1 chTotalQ i _ h1).2 c hq]
  · injection h with h
    intro c _ _ _
    rw [← h]

/-- CLAIM C5: for every `detect` call with SED output enabled,
`recordTotalOnly` false, and a packet of primary origin that succeeds: if
the scatter count `n` is 0 then `L` is added to `SED[Transparent][ell]`
and `L_ext = L*exp(-tau)` to `SED[PrimaryDirect][ell]`; if `n ≥ 1` then
`L_ext` is added to `SED[PrimaryScattered][ell]`, and additionally to
`SED[PrimaryScatteredLevel + n - 1][ell]` exactly when `n ≤ S`; no other
non-polarization SED channel changes. -/
theorem C5_detect_primary_sed (cfg : RecConfig) (st st' : RecState) (t : ℕ)
    (pkt : Packet) (l : ℤ) (etau : ℚ)
    (hf : cfg.includeFluxDensity = true)
    (hto : recordTotalOnly cfg = false)
    (hp : pkt.primaryOrigin = true)
    (h : detect cfg st t pkt l etau = some st') :
    (pkt.numScatt = 0 →
      st'.sed.getD chTransparent []
          = bump (st.sed.getD chTransparent []) pkt.ell pkt.luminosity ∧
        st'.sed.getD chPrimaryDirect []
          = bump (st.sed.getD chPrimaryDirect []) pkt.ell (pkt.luminosity * etau) ∧
        ∀ c : ℕ, c ≠ chTransparent → c ≠ chPrimaryDirect →
          c ≠ chTotalQ → c ≠ chTotalU → c ≠ chTotalV →
            st'.sed.getD c [] = st.sed.getD c []) ∧
    (1 ≤ pkt.numScatt →
      st'.sed.getD chPrimaryScattered []
          = bump (st.sed.getD chPrimaryScattered []) pkt.ell (pkt.luminosity * etau) ∧
        (pkt.numScatt ≤ cfg.numScatteringLevels →
          st'.sed.getD (chPrimaryScatteredLevel + pkt.numScatt - 1) []
            = bump (st.sed.getD (chPrimaryScatteredLevel + pkt.numScatt - 1) [])
                pkt.ell (pkt.luminosity * etau)) ∧
        ∀ c : ℕ, c ≠ chPrimaryScattered →
          (pkt.numScatt ≤ cfg.numScatteringLevels →
            c ≠ chPrimaryScatteredLevel + pkt.numScatt - 1) →
          c ≠ chTotalQ → c ≠ chTotalU → c ≠ chTotalV →
            st'.sed.getD c [] = st.sed.getD c []) := by
  unfold detect at h
  rw [Option.bind_eq_some] at h
  obtain ⟨sed', hsed, h⟩ := h
  rw [Option.bind_eq_some] at h
  obtain ⟨ifu', hifu, h⟩ := h
  rw [Option.map_eq_some'] at h
  obtain ⟨out, hout, hst⟩ := h
  have hs' : st'.sed = sed' := by rw [← hst]
  unfold detectSED at hsed
  rw [hf] at hsed
  unfold detectFamily at hsed
  rw [hto, hp] at hsed
  simp only [Bool.false_eq_true, if_false, eq_self_iff_true, if_true] at hsed
  constructor
  · intro hn0
    rw [hn0] at hsed
    simp only [eq_self_iff_true, if_true] at hsed
    rw [Option.bind_eq_some] at hsed
    obtain ⟨a2, h2, hpol⟩ := hsed
    rw [Option.bind_eq_some] at h2
    obtain ⟨a1, h1, h2⟩ := h2
    have p1 := addCh_props st.sed a1 chTransparent pkt.ell pkt.luminosity h1
    have p2 := addCh_props a1 a2 chPrimaryDirect pkt.ell (pkt.luminosity * etau) h2
    have pf := polAdds_frame cfg a2 sed' pkt.ell (pkt.luminosity * etau) pkt hpol
    refine ⟨?_, ?_, ?_⟩
    · rw [hs', pf chTransparent (by decide) (by decide) (by decide),
          p2.2 chTransparent (by decide), p1.1]
    · rw [hs', pf chPrimaryDirect (by decide) (by decide) (by decide),
          p2.1, p1.2 chPrimaryDirect (by decide)]
    · intro c hc1 hc2 hq hu hv
      rw [hs', pf c hq hu hv, p2.2 c hc2, p1.2 c hc1]
  · intro hn1
    have hn0 : ¬ pkt.numScatt = 0 := by omega
    rw [if_neg hn0] at hsed
    rw [Option.bind_eq_some] at hsed
    obtain ⟨a2, h2, hpol⟩ := hsed
    rw [Option.bind_eq_some] at h2
    obtain ⟨a1, h1, h2⟩ := h2
    have p1 := addCh_props st.sed a1 chPrimaryScattered pkt.ell (pkt.luminosity * etau) h1
    have pf := polAdds_frame cfg a2 sed' pkt.ell (pkt.luminosity * etau) pkt hpol
    by_cases hS : pkt.numScatt ≤ cfg.numScatteringLevels
    · rw [if_pos hS] at h2
      have p2 := addCh_props a1 a2 (chPrimaryScatteredLevel + pkt.numScatt - 1)
        pkt.ell (pkt.luminosity * etau) h2
      have hne : chPrimaryScattered ≠ chPrimaryScatteredLevel + pkt.numScatt - 1 := by
        unfold chPrimaryScattered chPrimaryScatteredLevel
        omega
      refine ⟨?_, fun _ => ?_, ?_⟩
      · rw [hs', pf chPrimaryScattered (by decide) (by decide) (by decide),
            p2.2 chPrimaryScattered hne, p1.1]
      · rw [hs',
            pf (chPrimaryScatteredLevel + pkt.numScatt - 1)
              (by unfold chPrimaryScatteredLevel chTotalQ; omega)
              (by unfold chPrimaryScatteredLevel chTotalU; omega)
              (by unfold chPrimaryScatteredLevel chTotalV; omega),
            p2.1, p1.2 (chPrimaryScatteredLevel + pkt.numScatt - 1) (Ne.symm hne)]
      · intro c hc1 hc2 hq hu hv
        rw [hs', pf c hq hu hv, p2.2 c (hc2 hS), p1.2 c hc1]
    · rw [if_neg hS] at h2
      injection h2 with h2
      refine ⟨?_, fun hS' => absurd hS' hS, ?_⟩
      · rw [hs', pf chPrimaryScattered (by decide) (by decide) (by decide), ← h2, p1.1]
      · intro c hc1 _ hq hu hv
        rw [hs', pf c hq hu hv, ← h2, p1.2 c hc1]

def cfgC5 : RecConfig := ⟨true, 1, false, false, true, false, true, false, 2, 0, 0⟩

def pktC5 : Packet := ⟨1, 1, 2, true, 0, 0, 0, 0⟩

def stC5 : RecState :=
  ⟨[[0, 0], [0, 0], [0, 0], [0, 0], [0, 0], [0, 0], [0, 0], [0, 0], [0, 0], [0, 0]],
   [], [], [], []⟩

def stC5f : RecState :=
  ⟨[[0, 0], [0, 0], [0, 0], [0, 1], [0, 0], [0, 0], [0, 0], [0, 0], [0, 0], [0, 1]],
   [], [], [], []⟩

theorem C5_detect_primary_sed_witness :
    (pktC5.numScatt = 0 →
      stC5f.sed.getD chTransparent []
          = bump (stC5.sed.getD chTransparent []) pktC5.ell pktC5.luminosity ∧
        stC5f.sed.getD chPrimaryDirect []
          = bump (stC5.sed.getD chPrimaryDirect []) pktC5.ell (pktC5.luminosity * (1/2)) ∧
        ∀ c : ℕ, c ≠ chTransparent → c ≠ chPrimaryDirect →
          c ≠ chTotalQ → c ≠ chTotalU → c ≠ chTotalV →
            stC5f.sed.getD c [] = stC5.sed.getD c []) ∧
    (1 ≤ pktC5.numScatt →
      stC5f.sed.getD chPrimaryScattered []
          = bump (stC5.sed.getD chPrimaryScattered []) pktC5.ell (pktC5.luminosity * (1/2)) ∧
        (pktC5.numScatt ≤ cfgC5.numScatteringLevels →
          stC5f.sed.getD (chPrimaryScatteredLevel + pktC5.numScatt - 1) []
            = bump (stC5.sed.getD (chPrimaryScatteredLevel + pktC5.numScatt - 1) [])
                pktC5.ell (pktC5.luminosity * (1/2))) ∧
        ∀ c : ℕ, c ≠ chPrimaryScattered →
          (pktC5.numScatt ≤ cfgC5.numScatteringLevels →
            c ≠ chPrimaryScatteredLevel + pktC5.numScatt - 1) →
          c ≠ chTotalQ → c ≠ chTotalU → c ≠ chTotalV →
            stC5f.sed.getD c [] = stC5.sed.getD c []) :=
  C5_detect_primary_sed cfgC5 stC5 stC5f 0 pktC5 0 (1/2)
    (by decide) (by decide) (by decide) (by decide)

/-- The per-site inputs of the mass loop in `readAndClose`: the imported
mass-or-density column value `v`, the metallicity column value `z`, and
the cell volume computed by the mesh. -/
structure SiteProps where
  v : ℚ
  z : ℚ
  volume : ℚ
deriving DecidableEq, Repr

/-- The mass density policy switches: `massIndex() >= 0` (import a mass
rather than a density), `metallicityIndex() >= 0`, and `multiplier()`. -/
structure MassPolicy where
  useMassIndex : Bool
  useMetallicity : Bool
  multiplier : ℚ
deriving DecidableEq, Repr

/-- `originalMass = massIndex() ? prop[massIndex()] : prop[densityIndex()] * volume`. -/
def originalMass (pol : MassPolicy) (s : SiteProps) : ℚ :=
  if pol.useMassIndex then s.v else s.v * s.volume

/-- `metallicMass = max(0., originalMass * (metallicityIndex()>=0 ? z : 1.))`. -/
def metallicMass (pol : MassPolicy) (s : SiteProps) : ℚ :=
  max 0 (originalMass pol s * (if pol.useMetallicity then s.z else 1))

/-- `effectiveMass = metallicMass * multiplier()`. -/
def effectiveMass (pol : MassPolicy) (s : SiteProps) : ℚ :=
  metallicMass pol s * pol.multiplier

/-- The suppression test of `readAndClose`:
`totalOriginalMass < 0 || totalMetallicMass < 0 || totalEffectiveMass < 0`
(strict comparisons). -/
def suppressCond (pol : MassPolicy) (propv : List SiteProps) : Prop :=
  (propv.map (originalMass pol)).sum < 0 ∨
    (propv.map (metallicMass pol)).sum < 0 ∨
    (propv.map (effectiveMass pol)).sum < 0

instance (pol : MassPolicy) (propv : List SiteProps) :
    Decidable (suppressCond pol propv) := by
  unfold suppressCond; infer_instance

/-- The mass-policy block of `readAndClose`, returning
`(_mass, _propv, _rhov, number of cells)` after the block.  The loop fills
`Mv[m] = effectiveMass` and `_rhov[m] = effectiveMass / volume`, sums the
three totals, and if any total is negative resets `_mass` to 0 and clears
`_propv`, `_rhov` and `_cells`; otherwise everything is kept.  The block
raises no fatal error: the function is total. -/
def applyMassPolicy (pol : MassPolicy) (propv : List SiteProps) :
    ℚ × List SiteProps × List ℚ × ℕ :=
  if suppressCond pol propv then (0, [], [], 0)
  else ((propv.map (effectiveMass pol)).sum, propv,
        propv.map (fun s => effectiveMass pol s / s.volume), propv.length)

def polC8 : MassPolicy := ⟨true, false, 1⟩

def propvC8 : List SiteProps := [⟨0, 0, 1⟩]

/-- CLAIM C8 counterexample: a single imported site of mass 0 makes all
three totals equal to 0 — `≤ 0`, so the claim demands suppression — yet
the code's strict `< 0` test keeps the whole distribution: `_propv` stays
non-empty and the cell survives. -/
theorem C8_counterexample :
    (propvC8.map (originalMass polC8)).sum = 0 ∧
      (propvC8.map (metallicMass polC8)).sum = 0 ∧
      (propvC8.map (effectiveMass polC8)).sum = 0 ∧
      applyMassPolicy polC8 propvC8 = (0, propvC8, [0], 1) ∧
      propvC8 ≠ [] := by
  decide

/-- CLAIM C8 (amended): the distribution is suppressed (total effective
mass 0, site/density/cell data cleared) exactly when one of the three
totals is strictly negative, kept intact otherwise, and no fatal error is
raised either way (the block is a total function).  Moreover the metallic
total is always ≥ 0 (each term is clamped by `max(0., ...)`), so with a
non-negative multiplier the test degenerates to
`totalOriginalMass < 0`. -/
theorem C8_mass_suppression (pol : MassPolicy) (propv : List SiteProps) :
    (suppressCond pol propv → applyMassPolicy pol propv = (0, [], [], 0)) ∧
      (¬ suppressCond pol propv →
        applyMassPolicy pol propv
          = ((propv.map (effectiveMass pol)).sum, propv,
             propv.map (fun s => effectiveMass pol s / s.volume), propv.length)) ∧
      (0 ≤ pol.multiplier →
        (suppressCond pol propv ↔ (propv.map (originalMass pol)).sum < 0)) := by
  refine ⟨fun h => ?_, fun h => ?_, fun hm => ?_⟩
  · unfold applyMassPolicy
    rw [if_pos h]
  · unfold applyMassPolicy
    rw [if_neg h]
  · have hM : 0 ≤ (propv.map (metallicMass pol)).sum := by
      apply List.sum_nonneg
      intro x hx
      rw [List.mem_map] at hx
      obtain ⟨s, _, rfl⟩ := hx
      exact le_max_left 0 _
    have hE : 0 ≤ (propv.map (effectiveMass pol)).sum := by
      apply List.sum_nonneg
      intro x hx
      rw [List.mem_map] at hx
      obtain ⟨s, _, rfl⟩ := hx
      exact mul_nonneg (le_max_left 0 _) hm
    unfold suppressCond
    constructor
    · rintro (h | h | h)
      · exact h
      · exact absurd h (not_lt.mpr hM)
      · exact absurd h (not_lt.mpr hE)
    · exact fun h => Or.inl h

theorem C8_mass_suppression_witness :
    ¬ suppressCond polC8 propvC8 ∧
      applyMassPolicy polC8 propvC8
        = ((propvC8.map (effectiveMass polC8)).sum, propvC8,
           propvC8.map (fun s => effectiveMass polC8 s / s.volume), propvC8.length) :=
  ⟨by decide, (C8_mass_suppression polC8 propvC8).2.1 (by decide)⟩
